import Mathlib

/-!
Verification of the Open Edison security/data-flow core against its
natural-language specification.

The development shallowly embeds the Python sources:

* `src/src/middleware/data_access_tracker.py` — permission classification
  (built-in allowlist, exact match, wildcard patterns) and the
  `DataAccessTracker` session state machine (`add_tool_call`,
  `add_resource_access`, `add_prompt_access`);
* `src/src/events.py` — the one-shot approval decision table
  (`approve_once`, the decision-consuming step of `wait_for_approval`);
* `src/src/pii/tokens.py` — token generation (`generate_token`) and
  detokenization (`detokenize_text` over `TOKEN_REGEX`);
* `src/src/pii/db.py` — the token store (`store_token_db`, `lookup_token_db`);
* `src/src/middleware/pii_obfuscation.py` — outbound obfuscation
  (`_obfuscate_text` with its two detector passes).

Python strings are embedded as `List Char` (Python indexes strings by code
points). Python slices `s[a:b]` with non-negative clamped bounds become
`(s.take b).drop a`. Raised exceptions become `Except`/`Option` error
results. Randomness (`secrets.token_bytes`) becomes an explicit stream of
hex payloads, and detector functions (the regex table and the presidio
wrapper) become function parameters whose contracts are stated as
hypotheses; the concrete e-mail matcher `detectEmails` mirrors
`EMAIL_RE.finditer`.
-/

namespace OpenEdison

/-- Conversion helper: a Python `str` is embedded as its list of code points. -/
def chars (s : String) : List Char := s.toList

/-- Python code-point slice `s[a:b]` (non-negative indices, clamped). -/
def sliceC (s : List Char) (a b : Nat) : List Char := (s.take b).drop a

/-! ## Permission classification (`data_access_tracker.py` lines 101-189)

A `*_permissions.json` entry is a JSON object; classification reads the three
operation flags with `.get(key, False)`, ignoring any other keys (notably
`enabled` and `acl`). -/

/-- One JSON permission entry as loaded from `tool/resource/prompt_permissions.json`.
Fields absent from the JSON object are `none`. -/
structure PermEntry where
  enabled : Option Bool := none
  write_operation : Option Bool := none
  read_private_data : Option Bool := none
  read_untrusted_public_data : Option Bool := none
  acl : Option (List Char) := none
deriving DecidableEq, Repr

/-- The permission dictionary built by `_classify_permissions_cached` and its
helpers: only the three operation flags, defaulted to `False`. -/
structure OpPerms where
  write_operation : Bool
  read_private_data : Bool
  read_untrusted_public_data : Bool
deriving DecidableEq, Repr

/-- Mirrors `config_perms.get("write_operation", False)` etc. -/
def permsOfEntry (e : PermEntry) : OpPerms :=
  { write_operation := e.write_operation.getD false
    read_private_data := e.read_private_data.getD false
    read_untrusted_public_data := e.read_untrusted_public_data.getD false }

/-- A permissions configuration file: an association list keyed by name
(Python `dict` with unique keys; lookup takes the first match). -/
abbrev PermConfig := List (List Char × PermEntry)

/-- The three classification kinds (`type_name` in the source). -/
inductive PermKind where
  | tool
  | resource
  | prompt
deriving DecidableEq, Repr

/-- Mirrors `builtin_safe_tools = ["echo", "get_server_info", "get_security_status"]`. -/
def builtin_safe_tools : List (List Char) :=
  [chars "echo", chars "get_server_info", chars "get_security_status"]

/-- Mirrors `_get_builtin_tool_permissions` (lines 101-112). -/
def getBuiltinToolPermissions (name : List Char) : Option OpPerms :=
  if name ∈ builtin_safe_tools then
    some { write_operation := false, read_private_data := false,
           read_untrusted_public_data := false }
  else
    none

/-- Mirrors `_get_exact_match_permissions` (lines 115-128):
`if name in permissions_config and not name.startswith("_")`. -/
def getExactMatchPermissions (name : List Char) (cfg : PermConfig) : Option OpPerms :=
  match cfg.lookup name with
  | some e => if (chars "_").isPrefixOf name then none else some (permsOfEntry e)
  | none => none

/-- Python `text.split(sep)` for a single-character separator: all fields,
empty fields preserved. -/
def splitOnChar (c : Char) : List Char → List (List Char)
  | [] => [[]]
  | x :: xs =>
    match splitOnChar c xs with
    | [] => [[]]
    | h :: t => if x = c then [] :: h :: t else (x :: h) :: t

/-- Mirrors `_get_wildcard_patterns` (lines 131-154). -/
def getWildcardPatterns (name : List Char) (k : PermKind) : List (List Char) :=
  match k with
  | .tool =>
    if '/' ∈ name then
      [(splitOnChar '/' name).headD [] ++ chars "/*"]
    else []
  | .resource =>
    if ':' ∈ name then
      [(splitOnChar ':' name).headD [] ++ chars ":*"]
    else []
  | .prompt =>
    if ':' ∈ name then
      let parts := splitOnChar ':' name
      (parts.headD [] ++ chars ":*") ::
        (if 3 ≤ parts.length then
          [parts.headD [] ++ chars ":" ++ (parts.getD 1 []) ++ chars ":*"]
        else [])
    else []

/-- The wildcard loop of `_classify_permissions_cached` (lines 173-183):
first pattern present in the configuration wins; flags are read with
`.get(key, False)`. -/
def wildcardFirst : List (List Char) → PermConfig → Option OpPerms
  | [], _ => none
  | pat :: rest, cfg =>
    match cfg.lookup pat with
    | some e => some (permsOfEntry e)
    | none => wildcardFirst rest cfg

/-- Mirrors `_classify_permissions_cached` (lines 157-189). `none` models the
`ValueError` raised when no configuration is found. -/
def classifyPermissions (name : List Char) (cfg : PermConfig) (k : PermKind) :
    Option OpPerms :=
  match (if k = .tool then getBuiltinToolPermissions name else none) with
  | some p => some p
  | none =>
    match getExactMatchPermissions name cfg with
    | some p => some p
    | none => wildcardFirst (getWildcardPatterns name k) cfg

/-! ## The session risk tracker (`DataAccessTracker`, lines 192-418) -/

/-- The per-session trifecta state (lines 203-206). -/
structure DataAccessTracker where
  has_private_data_access : Bool := false
  has_untrusted_content_exposure : Bool := false
  has_external_communication : Bool := false
deriving DecidableEq, Repr

/-- Mirrors `is_trifecta_achieved` (lines 208-214). -/
def is_trifecta_achieved (t : DataAccessTracker) : Bool :=
  t.has_private_data_access && t.has_untrusted_content_exposure &&
    t.has_external_communication

/-- The two exception exits of the record-access operations: the
`SecurityError` raised when the trifecta is already achieved, and the
`ValueError` raised by classification when no configuration matches. -/
inductive TrackerError where
  | trifectaBlocked
  | noConfiguration
deriving DecidableEq, Repr

/-- The flag-mutation block shared by the three record-access operations
(lines 300-310): OR each classified flag into the session state. -/
def applyPermissionFlags (p : OpPerms) (t : DataAccessTracker) : DataAccessTracker :=
  let t1 := if p.read_private_data then { t with has_private_data_access := true } else t
  let t2 :=
    if p.read_untrusted_public_data then
      { t1 with has_untrusted_content_exposure := true }
    else t1
  if p.write_operation then { t2 with has_external_communication := true } else t2

/-- Mirrors `DataAccessTracker.add_tool_call` (lines 279-316). -/
def add_tool_call (cfg : PermConfig) (t : DataAccessTracker) (tool_name : List Char) :
    Except TrackerError (DataAccessTracker × List Char) :=
  if is_trifecta_achieved t then
    .error .trifectaBlocked
  else
    match classifyPermissions tool_name cfg .tool with
    | none => .error .noConfiguration
    | some p => .ok (applyPermissionFlags p t, chars "placeholder_id")

/-- Mirrors `DataAccessTracker.add_resource_access` (lines 318-359). -/
def add_resource_access (cfg : PermConfig) (t : DataAccessTracker)
    (resource_name : List Char) :
    Except TrackerError (DataAccessTracker × List Char) :=
  if is_trifecta_achieved t then
    .error .trifectaBlocked
  else
    match classifyPermissions resource_name cfg .resource with
    | none => .error .noConfiguration
    | some p => .ok (applyPermissionFlags p t, chars "placeholder_id")

/-- Mirrors `DataAccessTracker.add_prompt_access` (lines 361-398). -/
def add_prompt_access (cfg : PermConfig) (t : DataAccessTracker)
    (prompt_name : List Char) :
    Except TrackerError (DataAccessTracker × List Char) :=
  if is_trifecta_achieved t then
    .error .trifectaBlocked
  else
    match classifyPermissions prompt_name cfg .prompt with
    | none => .error .noConfiguration
    | some p => .ok (applyPermissionFlags p t, chars "placeholder_id")

/-- One recorded access in a session: which operation ran and on which name. -/
inductive CallOp where
  | tool (name : List Char)
  | resource (name : List Char)
  | prompt (name : List Char)
deriving DecidableEq, Repr

/-- Execute one record-access operation; a raised exception leaves the
session state unchanged (the tracker mutates only on the success path). -/
def applyCall (tc rc pc : PermConfig) (t : DataAccessTracker) : CallOp → DataAccessTracker
  | .tool n =>
    match add_tool_call tc t n with
    | .ok (t2, _) => t2
    | .error _ => t
  | .resource n =>
    match add_resource_access rc t n with
    | .ok (t2, _) => t2
    | .error _ => t
  | .prompt n =>
    match add_prompt_access pc t n with
    | .ok (t2, _) => t2
    | .error _ => t

/-- Run a whole session history through the tracker. -/
def runCalls (tc rc pc : PermConfig) (t : DataAccessTracker) : List CallOp → DataAccessTracker
  | [] => t
  | op :: ops => runCalls tc rc pc (applyCall tc rc pc t op) ops

/-- Boolean flag ordering: every trifecta flag of `t` is preserved in `t2`. -/
def flagsLe (t t2 : DataAccessTracker) : Bool :=
  (!t.has_private_data_access || t2.has_private_data_access) &&
  (!t.has_untrusted_content_exposure || t2.has_untrusted_content_exposure) &&
  (!t.has_external_communication || t2.has_external_communication)

theorem flagsLe_refl (t : DataAccessTracker) : flagsLe t t = true := by
  cases t with
  | mk a b c => cases a <;> cases b <;> cases c <;> rfl

theorem flagsLe_trans {t1 t2 t3 : DataAccessTracker}
    (h1 : flagsLe t1 t2 = true) (h2 : flagsLe t2 t3 = true) : flagsLe t1 t3 = true := by
  cases t1 with
  | mk a b c =>
    cases t2 with
    | mk d e f =>
      cases t3 with
      | mk g h i =>
        cases a <;> cases b <;> cases c <;> cases d <;> cases e <;> cases f <;>
          cases g <;> cases h <;> cases i <;> simp_all [flagsLe]

theorem flagsLe_applyPermissionFlags (p : OpPerms) (t : DataAccessTracker) :
    flagsLe t (applyPermissionFlags p t) = true := by
  cases t with
  | mk a b c =>
    cases p with
    | mk w r u =>
      cases a <;> cases b <;> cases c <;> cases w <;> cases r <;> cases u <;> rfl

theorem flagsLe_applyCall (tc rc pc : PermConfig) (t : DataAccessTracker) (op : CallOp) :
    flagsLe t (applyCall tc rc pc t op) = true := by
  cases op with
  | tool n =>
    simp only [applyCall, add_tool_call]
    by_cases h : is_trifecta_achieved t = true
    · simp [h, flagsLe_refl]
    · simp only [Bool.not_eq_true] at h
      simp only [h, Bool.false_eq_true, if_false]
      cases hc : classifyPermissions n tc .tool with
      | none => simp [flagsLe_refl]
      | some p => simp [flagsLe_applyPermissionFlags]
  | resource n =>
    simp only [applyCall, add_resource_access]
    by_cases h : is_trifecta_achieved t = true
    · simp [h, flagsLe_refl]
    · simp only [Bool.not_eq_true] at h
      simp only [h, Bool.false_eq_true, if_false]
      cases hc : classifyPermissions n rc .resource with
      | none => simp [flagsLe_refl]
      | some p => simp [flagsLe_applyPermissionFlags]
  | prompt n =>
    simp only [applyCall, add_prompt_access]
    by_cases h : is_trifecta_achieved t = true
    · simp [h, flagsLe_refl]
    · simp only [Bool.not_eq_true] at h
      simp only [h, Bool.false_eq_true, if_false]
      cases hc : classifyPermissions n pc .prompt with
      | none => simp [flagsLe_refl]
      | some p => simp [flagsLe_applyPermissionFlags]

/-- C9: for every session, each trifecta flag is monotonically non-decreasing
across any sequence of `add_tool_call`, `add_resource_access` and
`add_prompt_access` operations: once a flag is true before running the
sequence, it is still true afterwards. -/
theorem c9_trifecta_flags_monotone (tc rc pc : PermConfig) (t : DataAccessTracker)
    (ops : List CallOp) : flagsLe t (runCalls tc rc pc t ops) = true := by
  induction ops generalizing t with
  | nil => exact flagsLe_refl t
  | cons op ops ih =>
    exact flagsLe_trans (flagsLe_applyCall tc rc pc t op) (ih (applyCall tc rc pc t op))

/-! ## Claims C1, C2, C3: rejection behaviour of the record-access operations

The source checks only `is_trifecta_achieved` before classification; it has
no `enabled` check, no ACL state and no proactive trifecta-prevention. -/

/-- Configuration for the C1 scenario: one outbound write tool. -/
def cfgC1 : PermConfig :=
  [(chars "send_email", { write_operation := some true })]

/-- C1 counterexample: with two trifecta flags already true, a call whose
record sets the third is not rejected: `add_tool_call` returns the success
value and mutates the state to all-three-true, contradicting the claimed
`trifecta_prevent` rejection with unchanged flags. -/
theorem c1_counterexample :
    add_tool_call cfgC1 ⟨true, true, false⟩ (chars "send_email") =
      .ok (⟨true, true, true⟩, chars "placeholder_id") := by
  rfl

/-- C1 (amended): a call whose resolved record would complete the trifecta is
allowed: the third flag is set (the trifecta becomes achieved) and the call
returns the placeholder result; only subsequent calls in that session are
rejected, before any classification, by the trifecta-achieved check. -/
theorem c1_amended_trifecta_completion_allowed (cfg : PermConfig)
    (t : DataAccessTracker) (name : List Char) (p : OpPerms)
    (h1 : is_trifecta_achieved t = false)
    (h2 : classifyPermissions name cfg .tool = some p)
    (h3 : is_trifecta_achieved (applyPermissionFlags p t) = true) :
    add_tool_call cfg t name = .ok (applyPermissionFlags p t, chars "placeholder_id") ∧
      ∀ name2 : List Char,
        add_tool_call cfg (applyPermissionFlags p t) name2 = .error .trifectaBlocked := by
  constructor
  · simp only [add_tool_call, h1, Bool.false_eq_true, if_false, h2]
  · intro name2
    simp only [add_tool_call, h3, if_true]

/-- Witness for `c1_amended_trifecta_completion_allowed` at the C1 scenario. -/
theorem c1_amended_witness :
    add_tool_call cfgC1 ⟨true, true, false⟩ (chars "send_email") =
        .ok (⟨true, true, true⟩, chars "placeholder_id") ∧
      add_tool_call cfgC1 ⟨true, true, true⟩ (chars "fs_read_file") =
        .error .trifectaBlocked := by
  have h := c1_amended_trifecta_completion_allowed cfgC1 ⟨true, true, false⟩
    (chars "send_email") ⟨true, false, false⟩ rfl rfl rfl
  exact ⟨h.1, h.2 (chars "fs_read_file")⟩

/-- Configuration for the C2 scenario: the `disabled_tool` entry of the
repository's own test `test_mock_load_tool_permissions_with_json`. -/
def cfgC2 : PermConfig :=
  [(chars "disabled_tool",
    { enabled := some false, write_operation := some false,
      read_private_data := some false, read_untrusted_public_data := some false })]

/-- C2 (code bug): a call whose permission record has `enabled = false` is not
rejected by `add_tool_call`: classification reads only the three operation
flags, ignoring `enabled`, so the call succeeds with unchanged state. The
repository's own test expects `SecurityError("... tool is disabled")` here. -/
theorem c2_disabled_tool_not_rejected :
    add_tool_call cfgC2 ⟨false, false, false⟩ (chars "disabled_tool") =
      .ok (⟨false, false, false⟩, chars "placeholder_id") := by
  rfl

/-- Configuration for the C3 scenario (spec Scenario B): a PRIVATE-classified
read tool and a PUBLIC-classified write tool. The `acl` values are present in
the entries and ignored by classification. -/
def cfgC3 : PermConfig :=
  [(chars "fs_read_file",
    { enabled := some true, read_private_data := some true,
      acl := some (chars "PRIVATE") }),
   (chars "db_write_record",
    { enabled := some true, write_operation := some true,
      acl := some (chars "PUBLIC") })]

/-- C3 counterexample (spec Scenario B): after a PRIVATE read, a
`write_operation=true` call with a lower-ranked `acl=PUBLIC` record is not
rejected as `acl_downgrade`: both calls succeed and the second mutates the
state, contradicting the claimed rejection with no state change. -/
theorem c3_counterexample :
    add_tool_call cfgC3 ⟨false, false, false⟩ (chars "fs_read_file") =
        .ok (⟨true, false, false⟩, chars "placeholder_id") ∧
      add_tool_call cfgC3 ⟨true, false, false⟩ (chars "db_write_record") =
        .ok (⟨true, false, true⟩, chars "placeholder_id") := by
  exact ⟨rfl, rfl⟩

/-- C3 (amended): the tracker keeps no access-level state and performs no
`acl_downgrade` check: whenever the trifecta is not already achieved, a call
whose record has `write_operation = true` is accepted whatever its `acl`
value, and it sets `has_external_communication`. -/
theorem c3_amended_no_acl_downgrade (cfg : PermConfig) (t : DataAccessTracker)
    (name : List Char) (p : OpPerms)
    (h1 : is_trifecta_achieved t = false)
    (h2 : classifyPermissions name cfg .tool = some p)
    (h3 : p.write_operation = true) :
    add_tool_call cfg t name = .ok (applyPermissionFlags p t, chars "placeholder_id") ∧
      (applyPermissionFlags p t).has_external_communication = true := by
  constructor
  · simp only [add_tool_call, h1, Bool.false_eq_true, if_false, h2]
  · simp only [applyPermissionFlags, h3, if_true]

/-- Witness for `c3_amended_no_acl_downgrade` at the Scenario B write call. -/
theorem c3_amended_witness :
    add_tool_call cfgC3 ⟨true, false, false⟩ (chars "db_write_record") =
        .ok (⟨true, false, true⟩, chars "placeholder_id") ∧
      (⟨true, false, true⟩ : DataAccessTracker).has_external_communication = true := by
  exact c3_amended_no_acl_downgrade cfgC3 ⟨true, false, false⟩
    (chars "db_write_record") ⟨true, false, false⟩ rfl rfl rfl

/-! ## Claim C4: absence of configuration is always an error -/

theorem wildcardFirst_none {cfg : PermConfig} :
    ∀ {pats : List (List Char)}, (∀ pat ∈ pats, cfg.lookup pat = none) →
      wildcardFirst pats cfg = none
  | [], _ => rfl
  | pat :: rest, h => by
    have hp : cfg.lookup pat = none := h pat (List.mem_cons_self pat rest)
    simp only [wildcardFirst, hp]
    exact wildcardFirst_none fun q hq => h q (List.mem_cons_of_mem pat hq)

/-- C4: if a name has no built-in allowlist entry, no exact entry and no
matching wildcard-pattern entry in the kind's permission mapping, then
classification returns the error result (the `ValueError` raise); it never
falls back to a default permission record. -/
theorem c4_missing_config_is_error (name : List Char) (cfg : PermConfig) (k : PermKind)
    (hb : k = .tool → getBuiltinToolPermissions name = none)
    (he : getExactMatchPermissions name cfg = none)
    (hw : ∀ pat ∈ getWildcardPatterns name k, cfg.lookup pat = none) :
    classifyPermissions name cfg k = none := by
  have hwild : wildcardFirst (getWildcardPatterns name k) cfg = none :=
    wildcardFirst_none hw
  by_cases hk : k = .tool
  · subst hk
    simp only [classifyPermissions, if_true, hb rfl, he, hwild]
  · simp only [classifyPermissions, hk, if_false, he, hwild]

/-- Witness for `c4_missing_config_is_error`: spec Scenario E, the unmatched
name `ghost/tool` against a configuration holding only unrelated entries. -/
theorem c4_witness :
    classifyPermissions (chars "ghost/tool")
      [(chars "fs_read_file", { read_private_data := some true })] .tool = none := by
  exact c4_missing_config_is_error (chars "ghost/tool")
    [(chars "fs_read_file", { read_private_data := some true })] .tool
    (fun _ => rfl) rfl (by decide)

/-! ## Claim C8: resolution order of classification -/

/-- Configuration for the C8 scenario: an exact entry for the built-in tool
name `echo` whose record differs from the built-in all-false record. -/
def cfgC8 : PermConfig :=
  [(chars "echo",
    { enabled := some true, write_operation := some true,
      read_private_data := some true, read_untrusted_public_data := some true })]

/-- C8 counterexample: for a tool name with both an exact entry in the base
mapping and a built-in allowlist entry, classification returns the built-in
all-false record, not the exact-match record: the allowlist is consulted
before exact matching, contradicting the claimed order. -/
theorem c8_counterexample :
    classifyPermissions (chars "echo") cfgC8 .tool =
        some ⟨false, false, false⟩ ∧
      getExactMatchPermissions (chars "echo") cfgC8 = some ⟨true, true, true⟩ ∧
      (⟨false, false, false⟩ : OpPerms) ≠ ⟨true, true, true⟩ := by
  exact ⟨rfl, rfl, by decide⟩

/-- C8 (amended): classification resolves in the order: (for kind=tool only)
built-in safe allowlist, then exact match in the kind-specific base mapping,
then wildcard patterns; there is no agent-override layer. In particular a
tool name with both an exact entry and a built-in allowlist entry resolves to
the allowlist record, and for non-tool kinds the allowlist is never
consulted. -/
theorem c8_amended_resolution_order :
    (∀ (name : List Char) (cfg : PermConfig) (p : OpPerms),
      getBuiltinToolPermissions name = some p →
        classifyPermissions name cfg .tool = some p) ∧
    (∀ (name : List Char) (cfg : PermConfig) (q : OpPerms),
      getBuiltinToolPermissions name = none →
        getExactMatchPermissions name cfg = some q →
          classifyPermissions name cfg .tool = some q) ∧
    (∀ (name : List Char) (cfg : PermConfig) (q : OpPerms),
      getExactMatchPermissions name cfg = some q →
        classifyPermissions name cfg .resource = some q) := by
  refine ⟨fun name cfg p hb => ?_, fun name cfg q hb he => ?_, fun name cfg q he => ?_⟩
  · simp only [classifyPermissions, if_true, hb]
  · simp only [classifyPermissions, if_true, hb, he]
  · simp only [classifyPermissions, reduceCtorEq, if_false, he]

/-- Witness for `c8_amended_resolution_order` at the C8 scenario. -/
theorem c8_amended_witness :
    classifyPermissions (chars "echo") cfgC8 .tool = some ⟨false, false, false⟩ := by
  exact c8_amended_resolution_order.1 (chars "echo") cfgC8 ⟨false, false, false⟩ rfl

/-! ## Claim C7: one-shot approval decisions (`events.py` lines 22-209)

The module keeps two keyed tables: `_approvals` (an `asyncio.Event` per key)
and `_decisions` (the recorded boolean decision per key), both guarded by
`_approvals_lock`. We embed the tables as association lists with dictionary
semantics (unique keys; assignment replaces, `pop` removes). The decision
check inside `wait_for_approval`'s loop (lines 188-192) is the only point
that observes and consumes a decision. -/

/-- Mirrors `_approval_key` (lines 30-31). -/
def approvalKey (session_id kind name : List Char) : List Char :=
  session_id ++ chars "::" ++ kind ++ chars "::" ++ name

/-- Dictionary assignment `d[k] = b`: replace the entry if present, else add. -/
def dictSet : List (List Char × Bool) → List Char → Bool → List (List Char × Bool)
  | [], k, b => [(k, b)]
  | (k0, b0) :: rest, k, b =>
    if k0 = k then (k0, b) :: rest else (k0, b0) :: dictSet rest k b

/-- The shared approval state: keys holding an `asyncio.Event`
(`_approvals`) and recorded decisions (`_decisions`). -/
structure ApprovalState where
  approvals : List (List Char)
  decisions : List (List Char × Bool)
deriving DecidableEq, Repr

/-- Mirrors `approve_once` (lines 137-151): ensure an event exists for the
key and record a positive decision. -/
def approve_once (session_id kind name : List Char) (st : ApprovalState) :
    ApprovalState :=
  let key := approvalKey session_id kind name
  { approvals := if key ∈ st.approvals then st.approvals else st.approvals ++ [key]
    decisions := dictSet st.decisions key true }

/-- Mirrors `deny_once` (lines 153-166). -/
def deny_once (session_id kind name : List Char) (st : ApprovalState) :
    ApprovalState :=
  let key := approvalKey session_id kind name
  { approvals := if key ∈ st.approvals then st.approvals else st.approvals ++ [key]
    decisions := dictSet st.decisions key false }

/-- The decision check performed under `_approvals_lock` on each iteration of
`wait_for_approval` (lines 188-192): if a decision is recorded for the key,
pop both the decision and the event and return the decision; otherwise keep
waiting (`none`). -/
def waitDecisionStep (session_id kind name : List Char) (st : ApprovalState) :
    Option (Bool × ApprovalState) :=
  let key := approvalKey session_id kind name
  match st.decisions.lookup key with
  | some d =>
    some (d, { approvals := st.approvals.filter (fun k => k ≠ key)
               decisions := st.decisions.filter (fun e => e.1 ≠ key) })
  | none => none

theorem lookup_dictSet (l : List (List Char × Bool)) (k : List Char) (b : Bool) :
    (dictSet l k b).lookup k = some b := by
  induction l with
  | nil => simp [dictSet, List.lookup]
  | cons e rest ih =>
    by_cases h : e.1 = k
    · obtain ⟨k0, b0⟩ := e
      simp only at h
      simp [dictSet, h, List.lookup]
    · obtain ⟨k0, b0⟩ := e
      simp only at h
      simp only [dictSet, h, if_false, List.lookup]
      have hbeq : (k == k0) = false := by
        simp only [beq_eq_false_iff_ne, ne_eq]
        exact fun hk => h hk.symm
      simp [hbeq, ih]

theorem lookup_filter_ne (l : List (List Char × Bool)) (k : List Char) :
    (l.filter (fun e => e.1 ≠ k)).lookup k = none := by
  induction l with
  | nil => simp
  | cons e rest ih =>
    obtain ⟨k0, b0⟩ := e
    by_cases h : k0 = k
    · subst h
      simp only [List.filter_cons]
      simp [ih]
      exact fun a => ⟨fun _ h1 h2 => h1 h2.symm, fun _ h1 h2 => h1 h2.symm⟩
    · simp only [List.filter_cons]
      have hd : (decide ¬(k0, b0).1 = k) = true := by simp [h]
      simp only [hd, if_true]
      simp only [List.lookup]
      have hbeq : (k == k0) = false := by
        simp only [beq_eq_false_iff_ne, ne_eq]
        exact fun hk => h hk.symm
      simp [hbeq, ih]
      exact fun a => ⟨fun _ h1 h2 => h1 h2.symm, fun _ h1 h2 => h1 h2.symm⟩

theorem mem_filter_ne_self (l : List (List Char)) (k : List Char) :
    k ∉ l.filter (fun x => x ≠ k) := by
  intro hmem
  have := List.of_mem_filter hmem
  simp at this

/-- C7: a decision written by `approve_once` is consumed by at most one wait:
the first wait step to observe it returns the positive decision and clears
both the decision entry and the event for that key, after which the decision
table holds nothing for the key, the event is gone, and a subsequent wait
step on the identical key observes no decision and must keep waiting. -/
theorem c7_approval_consumed_once (session_id kind name : List Char)
    (st : ApprovalState) :
    ∃ st2 : ApprovalState,
      waitDecisionStep session_id kind name
          (approve_once session_id kind name st) = some (true, st2) ∧
        st2.decisions.lookup (approvalKey session_id kind name) = none ∧
        approvalKey session_id kind name ∉ st2.approvals ∧
        waitDecisionStep session_id kind name st2 = none := by
  set key := approvalKey session_id kind name with hkey
  set st1 := approve_once session_id kind name st with hst1
  have hlook : st1.decisions.lookup key = some true := by
    simp only [hst1, approve_once]
    exact lookup_dictSet st.decisions key true
  refine ⟨{ approvals := st1.approvals.filter (fun k => k ≠ key)
            decisions := st1.decisions.filter (fun e => e.1 ≠ key) }, ?_, ?_, ?_, ?_⟩
  · simp only [waitDecisionStep, ← hkey, hlook]
  · exact lookup_filter_ne st1.decisions key
  · exact mem_filter_ne_self st1.approvals key
  · simp only [waitDecisionStep, ← hkey, lookup_filter_ne st1.decisions key]

/-! ## PII tokens (`pii/tokens.py`) and token store (`pii/db.py`)

`TOKEN_REGEX = |<PRIVATE_DATA_[0-9A-Fa-f]{16,128}>|` (escaped). A match is a
literal prefix, a hex run of length 16..128 and the literal suffix; since
`>` is not a hex digit, the greedy hex quantifier always stops exactly at
the end of the maximal hex run, so matching at a position succeeds iff the
maximal hex run after the prefix has length in 16..128 and is followed by
the suffix. -/

/-- Mirrors `TOKEN_PREFIX = "|<PRIVATE_DATA_"`. -/
def tokPre : List Char := chars "|<PRIVATE_DATA_"

/-- Mirrors `TOKEN_SUFFIX = ">|"`. -/
def tokSuf : List Char := chars ">|"

/-- Mirrors `HEX_MIN = 16`. -/
def hexMin : Nat := 16

/-- Mirrors `HEX_MAX = 128`. -/
def hexMax : Nat := 128

/-- Membership in the regex class `[0-9A-Fa-f]`. -/
def isHexChar (c : Char) : Bool :=
  (('0' ≤ c && c ≤ '9') || ('a' ≤ c && c ≤ 'f') || ('A' ≤ c && c ≤ 'F'))

/-- Length of the maximal leading run of `[0-9A-Fa-f]` characters. -/
def hexRun : List Char → Nat
  | [] => 0
  | c :: cs => if isHexChar c then hexRun cs + 1 else 0

/-- Attempt a `TOKEN_REGEX` match at the start of `s`; on success return the
matched token text and the remaining input. -/
def tryTokenMatch (s : List Char) : Option (List Char × List Char) :=
  if tokPre.isPrefixOf s then
    if hexMin ≤ hexRun (s.drop tokPre.length) ∧ hexRun (s.drop tokPre.length) ≤ hexMax then
      if tokSuf.isPrefixOf ((s.drop tokPre.length).drop (hexRun (s.drop tokPre.length))) then
        some (s.take (tokPre.length + hexRun (s.drop tokPre.length) + tokSuf.length),
          ((s.drop tokPre.length).drop (hexRun (s.drop tokPre.length))).drop tokSuf.length)
      else none
    else none
  else none

/-- One row of the `pii_tokens` table (`pii/db.py` lines 11-21); the
timestamp columns are irrelevant to lookups and omitted. -/
structure TokenRow where
  token : List Char
  session_id : List Char
  value_plaintext : List Char
  categories : List (List Char)
  source_kind : List Char
  source_name : List Char
deriving DecidableEq, Repr

/-- The token store: rows in insertion order (`store_token_db` appends). -/
abbrev TokenDB := List TokenRow

/-- Mirrors `store_token_db` (`pii/db.py` lines 43-65): insert one row. -/
def store_token_db (db : TokenDB) (row : TokenRow) : TokenDB := db ++ [row]

/-- Mirrors `lookup_token_db` (`pii/db.py` lines 68-77): select the row with
this `(token, session_id)` pair and return its plaintext. The source uses
`scalar_one_or_none`, which assumes at most one matching row; theorems that
mint tokens carry freshness hypotheses keeping the table duplicate-free. -/
def lookup_token_db (db : TokenDB) (token session_id : List Char) :
    Option (List Char) :=
  (db.find? (fun row => row.token = token && row.session_id = session_id)).map
    (fun row => row.value_plaintext)

theorem tryTokenMatch_rest_length {s tok rest : List Char}
    (h : tryTokenMatch s = some (tok, rest)) : rest.length + 33 ≤ s.length := by
  unfold tryTokenMatch at h
  by_cases hpre : tokPre.isPrefixOf s = true
  case neg => rw [if_neg hpre] at h; exact absurd h (by simp)
  rw [if_pos hpre] at h
  by_cases hr : hexMin ≤ hexRun (s.drop tokPre.length) ∧
      hexRun (s.drop tokPre.length) ≤ hexMax
  case neg => rw [if_neg hr] at h; exact absurd h (by simp)
  rw [if_pos hr] at h
  by_cases hsuf : tokSuf.isPrefixOf
      ((s.drop tokPre.length).drop (hexRun (s.drop tokPre.length))) = true
  case neg => rw [if_neg hsuf] at h; exact absurd h (by simp)
  rw [if_pos hsuf] at h
  have hrest : rest =
      ((s.drop tokPre.length).drop (hexRun (s.drop tokPre.length))).drop
        tokSuf.length := by
    have h2 := h
    simp only [Option.some.injEq, Prod.mk.injEq] at h2
    exact h2.2.symm
  have hsuflen : tokSuf.length ≤
      ((s.drop tokPre.length).drop (hexRun (s.drop tokPre.length))).length :=
    (List.isPrefixOf_iff_prefix.mp hsuf).length_le
  have h16 : hexMin ≤ hexRun (s.drop tokPre.length) := hr.1
  subst hrest
  have hpl : tokPre.length = 15 := rfl
  have hsl : tokSuf.length = 2 := rfl
  have hmin : hexMin = 16 := rfl
  simp only [hpl, hsl, hmin, List.length_drop] at hsuflen h16 ⊢
  omega

/-- The scanner of `TOKEN_REGEX.finditer`/`TOKEN_REGEX.sub`: at each position
try a match; on a match, emit the replacement (`resolve`) and continue after
it; otherwise copy one character. The fuel argument dominates the input
length. -/
def scanSubGo (resolve : List Char → List Char) : Nat → List Char → List Char
  | 0, s => s
  | _ + 1, [] => []
  | fuel + 1, c :: cs =>
    match tryTokenMatch (c :: cs) with
    | some (tok, rest) => resolve tok ++ scanSubGo resolve fuel rest
    | none => c :: scanSubGo resolve fuel cs

/-- The `_replace` callback of `detokenize_text`: a token resolving in the
session-scoped store becomes its plaintext, any other match is emitted
unchanged. -/
def resolveWith (db : TokenDB) (session_id : List Char) (tok : List Char) :
    List Char :=
  match lookup_token_db db tok session_id with
  | some v => v
  | none => tok

/-- Mirrors `detokenize_text` (`pii/tokens.py` lines 23-41): every
`TOKEN_REGEX` match whose token resolves in the session-scoped store is
replaced by its plaintext; non-resolving matches are emitted unchanged
(the `val if val is not None else tok` branch of `_replace`). Collecting
matches first and building a mapping, as the source does, is equivalent to
resolving each match during one left-to-right scan because lookups are
deterministic. -/
def detokenize_text (db : TokenDB) (session_id : List Char) (text : List Char) :
    List Char :=
  scanSubGo (resolveWith db session_id) text.length text

/-! ## Token generation (`pii/tokens.py` lines 14-21)

`generate_token(hex_len_bytes)` is `TOKEN_PREFIX + token_bytes(n).hex() +
TOKEN_SUFFIX`. The random bytes are an explicit input; `bytes.hex()` maps
each byte to two lowercase hex digits. -/

/-- Mirrors `bytes.hex()`: two lowercase hex digits per byte. -/
def bytesToHexChars (bs : List Nat) : List Char :=
  (bs.map (fun b => [Nat.digitChar (b / 16), Nat.digitChar (b % 16)])).flatten

/-- Mirrors `generate_token` applied to an already-hex-encoded payload. -/
def generate_token_hex (h : List Char) : List Char := tokPre ++ h ++ tokSuf

/-- Mirrors `generate_token(hex_len_bytes)` with the drawn random bytes made
explicit. -/
def generate_token (bs : List Nat) : List Char :=
  generate_token_hex (bytesToHexChars bs)

/-! ## The outbound obfuscation pass (`middleware/pii_obfuscation.py` lines 132-165)

`_obfuscate_text` runs `replace_findings` twice: once over the regex
detector table (`pii/detect.py`) and once over the presidio wrapper applied
to the updated text. Findings are processed in order of `f.start`
(`sorted(findings, key=lambda f: f.start)`); a finding starting before the
cursor or at a position where the text starts with `TOKEN_PREFIX` is
skipped; otherwise the span is replaced by a fresh token and a row is
stored. Randomness is an explicit stream `rnd` of hex payloads indexed by a
mint counter. -/

/-- A detector finding (`pii/detect.py` lines 6-11); `stop` mirrors the
source field `end`. -/
structure Finding where
  start : Nat
  stop : Nat
  value : List Char
  category : List Char
deriving DecidableEq, Repr

/-- The state threaded through obfuscation: the token store and the mint
counter indexing the random stream. -/
structure ObSt where
  db : TokenDB
  ctr : Nat
deriving DecidableEq, Repr

/-- Mirrors the `replace_findings` loop body of `_obfuscate_text`
(lines 133-157); the `changed` flag is discarded by the caller and omitted. -/
def replaceFindingsGo (rnd : Nat → List Char) (session_id : List Char)
    (input : List Char) : List Finding → Nat → ObSt → List Char × ObSt
  | [], cursor, st => (input.drop cursor, st)
  | f :: fs, cursor, st =>
    if f.start < cursor then
      replaceFindingsGo rnd session_id input fs cursor st
    else if tokPre.isPrefixOf (sliceC input f.start (f.start + tokPre.length)) then
      replaceFindingsGo rnd session_id input fs cursor st
    else
      let token := generate_token_hex (rnd st.ctr)
      let st2 : ObSt :=
        { db := store_token_db st.db
            { token := token, session_id := session_id, value_plaintext := f.value,
              categories := [f.category], source_kind := chars "tool",
              source_name := [] }
          ctr := st.ctr + 1 }
      let rec2 := replaceFindingsGo rnd session_id input fs f.stop st2
      (sliceC input cursor f.start ++ token ++ rec2.1, rec2.2)

/-- Stable insertion by `start`: the inserted element goes before any
element with an equal or larger key. -/
def insertByStart (f : Finding) : List Finding → List Finding
  | [] => [f]
  | g :: gs => if g.start < f.start then g :: insertByStart f gs else f :: g :: gs

/-- Python `sorted(findings, key=lambda f: f.start)`. Stable sorts by the
same key are extensionally unique, so insertion sort models `sorted`
exactly (and, unlike well-founded definitions, evaluates by reduction). -/
def sortFindings : List Finding → List Finding
  | [] => []
  | f :: fs => insertByStart f (sortFindings fs)

/-- Mirrors `_obfuscate_text` (lines 132-165): pass 1 over the regex
detector findings on `text`, pass 2 over the presidio findings on the
updated text. -/
def obfuscateText (detectF presidioF : List Char → List Finding)
    (rnd : Nat → List Char) (session_id : List Char) (st : ObSt)
    (text : List Char) : List Char × ObSt :=
  let p1 := replaceFindingsGo rnd session_id text (sortFindings (detectF text)) 0 st
  replaceFindingsGo rnd session_id p1.1 (sortFindings (presidioF p1.1)) 0 p1.2

/-! ## The concrete e-mail detector (`pii/detect.py` line 15)

`EMAIL_RE = [A-Za-z0-9._%+-]+@[A-Za-z0-9.-]+\.[A-Za-z]{2,}` with
`finditer` semantics: at each position, the local-part run is maximal (the
class excludes `@`, so no backtracking arises), then `@`, then the greedy
domain run backtracks from its maximal length to the largest split point
holding a literal `.` followed by at least two letters; matches are
non-overlapping and leftmost. -/

/-- Length of the maximal leading run of characters satisfying `p`. -/
def runLen (p : Char → Bool) : List Char → Nat
  | [] => 0
  | c :: cs => if p c then runLen p cs + 1 else 0

/-- The regex class `[A-Za-z0-9._%+-]`. -/
def isLocalChar (c : Char) : Bool :=
  (('A' ≤ c && c ≤ 'Z') || ('a' ≤ c && c ≤ 'z') || ('0' ≤ c && c ≤ '9') ||
    c = '.' || c = '_' || c = '%' || c = '+' || c = '-')

/-- The regex class `[A-Za-z0-9.-]`. -/
def isDomainChar (c : Char) : Bool :=
  (('A' ≤ c && c ≤ 'Z') || ('a' ≤ c && c ≤ 'z') || ('0' ≤ c && c ≤ '9') ||
    c = '.' || c = '-')

/-- The regex class `[A-Za-z]`. -/
def isAlphaChar (c : Char) : Bool :=
  (('A' ≤ c && c ≤ 'Z') || ('a' ≤ c && c ≤ 'z'))

/-- Backtracking of the greedy domain run: try split points from `k` down to
1; at a split point the character must be `.` and at least two letters must
follow; return the matched length within the domain suffix. -/
def emailSplitGo (rest2 : List Char) : Nat → Option Nat
  | 0 => none
  | kk + 1 =>
    if rest2.getD (kk + 1) ' ' = '.' then
      let m := runLen isAlphaChar (rest2.drop (kk + 2))
      if 2 ≤ m then some (kk + 2 + m) else emailSplitGo rest2 kk
    else emailSplitGo rest2 kk

/-- Length of the `EMAIL_RE` match anchored at the start of `s`, if any. -/
def emailMatchLen (s : List Char) : Option Nat :=
  let l := runLen isLocalChar s
  if l = 0 then none
  else
    match s.drop l with
    | '@' :: rest2 =>
      let d := runLen isDomainChar rest2
      if d = 0 then none
      else
        match emailSplitGo rest2 (d - 1) with
        | some e => some (l + 1 + e)
        | none => none
    | _ => none

/-- The `finditer` scan: leftmost matches, continuing after each match. -/
def detectEmailsGo : Nat → List Char → Nat → List Finding
  | 0, _, _ => []
  | _ + 1, [], _ => []
  | fuel + 1, c :: cs, i =>
    match emailMatchLen (c :: cs) with
    | some len =>
      { start := i, stop := i + len, value := (c :: cs).take len,
        category := chars "EMAIL_ADDRESS" } ::
        detectEmailsGo fuel ((c :: cs).drop len) (i + len)
    | none => detectEmailsGo fuel cs (i + 1)

/-- Mirrors `EMAIL_RE.finditer(text)` wrapped as `detect` findings
(`pii/detect.py` lines 33-36, restricted to the e-mail pattern, which is
also the presidio wrapper's only pattern). -/
def detectEmails (text : List Char) : List Finding :=
  detectEmailsGo text.length text 0

/-! ## Well-formed tokens and the anchored-match lemma -/

/-- A well-formed token: the sentinel prefix, a hex payload within the
`TOKEN_REGEX` length bounds, and the sentinel suffix. -/
def WfTok (t : List Char) : Prop :=
  ∃ h : List Char, t = tokPre ++ h ++ tokSuf ∧
    (∀ c ∈ h, isHexChar c = true) ∧ hexMin ≤ h.length ∧ h.length ≤ hexMax

theorem hexRun_append_stop {h : List Char} (e : List Char)
    (hall : ∀ c ∈ h, isHexChar c = true) {d : Char} (hd : isHexChar d = false) :
    hexRun (h ++ d :: e) = h.length := by
  induction h with
  | nil => simp [hexRun, hd]
  | cons c cs ih =>
    have hc : isHexChar c = true := hall c (List.mem_cons_self c cs)
    simp only [List.cons_append, hexRun, hc, if_true, List.length_cons]
    exact congrArg (· + 1) (ih (fun x hx => hall x (List.mem_cons_of_mem c hx)))

/-- A well-formed token anchored at the start of any text matches
`TOKEN_REGEX` exactly up to its own end. -/
theorem wfTok_tryMatch {t : List Char} (hw : WfTok t) (rest : List Char) :
    tryTokenMatch (t ++ rest) = some (t, rest) := by
  obtain ⟨h, ht, hall, hmin, hmax⟩ := hw
  subst ht
  have hassoc : (tokPre ++ h ++ tokSuf) ++ rest =
      tokPre ++ (h ++ ('>' :: '|' :: rest)) := by
    simp only [tokSuf, chars]
    simp [List.append_assoc]
  rw [hassoc]
  have hpre : tokPre.isPrefixOf (tokPre ++ (h ++ '>' :: '|' :: rest)) = true :=
    List.isPrefixOf_iff_prefix.mpr (List.prefix_append tokPre _)
  have hgt : isHexChar '>' = false := by decide
  have hdrop : (tokPre ++ (h ++ '>' :: '|' :: rest)).drop tokPre.length =
      h ++ '>' :: '|' :: rest := List.drop_left tokPre _
  have hrun : hexRun (h ++ '>' :: '|' :: rest) = h.length :=
    hexRun_append_stop ('|' :: rest) hall hgt
  unfold tryTokenMatch
  rw [if_pos hpre, hdrop, hrun, if_pos ⟨hmin, hmax⟩]
  have hdrop2 : (h ++ '>' :: '|' :: rest).drop h.length = '>' :: '|' :: rest :=
    List.drop_left h _
  rw [hdrop2]
  have hsuf : tokSuf.isPrefixOf ('>' :: '|' :: rest) = true := by
    apply List.isPrefixOf_iff_prefix.mpr
    exact ⟨rest, rfl⟩
  rw [if_pos hsuf]
  have hlen : tokPre.length + h.length + tokSuf.length =
      ((tokPre ++ h ++ tokSuf)).length := by
    simp only [List.length_append]
  have htake : (tokPre ++ (h ++ '>' :: '|' :: rest)).take
      (tokPre.length + h.length + tokSuf.length) = tokPre ++ h ++ tokSuf := by
    rw [hlen, ← hassoc]
    exact List.take_left (tokPre ++ h ++ tokSuf) rest
  rw [htake]
  have hsl : tokSuf.length = 2 := rfl
  rw [hsl]
  rfl

/-! ## Claim C10: generated tokens are well-formed and recognizable -/

theorem digitChar_isHex {n : Nat} (hn : n < 16) :
    isHexChar (Nat.digitChar n) = true := by
  interval_cases n <;> decide

theorem bytesToHexChars_length (bs : List Nat) :
    (bytesToHexChars bs).length = 2 * bs.length := by
  induction bs with
  | nil => rfl
  | cons b rest ih =>
    simp only [bytesToHexChars, List.map_cons, List.flatten_cons, List.length_append,
      List.length_cons, List.length_nil] at ih ⊢
    omega

theorem bytesToHexChars_hex (bs : List Nat) (hb : ∀ b ∈ bs, b < 256) :
    ∀ c ∈ bytesToHexChars bs, isHexChar c = true := by
  induction bs with
  | nil => intro c hc; simp [bytesToHexChars] at hc
  | cons b rest ih =>
    intro c hc
    simp only [bytesToHexChars, List.map_cons, List.flatten_cons, List.mem_append,
      List.mem_cons, List.not_mem_nil, or_false] at hc
    rcases hc with (hc | hc) | hmem
    · have : b < 256 := hb b (List.mem_cons_self b rest)
      subst hc
      exact digitChar_isHex (by omega)
    · have : b < 256 := hb b (List.mem_cons_self b rest)
      subst hc
      exact digitChar_isHex (Nat.mod_lt b (by omega))
    · exact ih (fun x hx => hb x (List.mem_cons_of_mem b hx)) c hmem

/-- C10: `generate_token` on the middleware's fixed 32 random bytes yields
the sentinel prefix, exactly 64 hexadecimal characters and the sentinel
suffix, and the whole token matches the detokenization pattern
`TOKEN_REGEX` (hex bounds 16..128) exactly. -/
theorem c10_generated_token_wellformed (bs : List Nat) (hlen : bs.length = 32)
    (hb : ∀ b ∈ bs, b < 256) :
    generate_token bs = tokPre ++ bytesToHexChars bs ++ tokSuf ∧
      (bytesToHexChars bs).length = 64 ∧
      (∀ c ∈ bytesToHexChars bs, isHexChar c = true) ∧
      tryTokenMatch (generate_token bs) = some (generate_token bs, []) := by
  have h64 : (bytesToHexChars bs).length = 64 := by
    rw [bytesToHexChars_length, hlen]
  have hhex := bytesToHexChars_hex bs hb
  have hwf : WfTok (generate_token bs) := by
    refine ⟨bytesToHexChars bs, rfl, hhex, ?_, ?_⟩
    · rw [h64]; decide
    · rw [h64]; decide
  refine ⟨rfl, h64, hhex, ?_⟩
  have := wfTok_tryMatch hwf []
  rwa [List.append_nil] at this

/-- Witness for `c10_generated_token_wellformed` at a concrete byte draw. -/
theorem c10_witness :
    generate_token (List.replicate 32 7) =
        tokPre ++ bytesToHexChars (List.replicate 32 7) ++ tokSuf ∧
      (bytesToHexChars (List.replicate 32 7)).length = 64 ∧
      (∀ c ∈ bytesToHexChars (List.replicate 32 7), isHexChar c = true) ∧
      tryTokenMatch (generate_token (List.replicate 32 7)) =
        some (generate_token (List.replicate 32 7), []) := by
  exact c10_generated_token_wellformed (List.replicate 32 7) (by decide)
    (by decide)

/-! ## Segment decompositions of obfuscated text

Obfuscated output interleaves plain-text pieces (substrings of the original
payload) with minted tokens. The scanner lemmas below show that on such an
interleaving the `TOKEN_REGEX` scan resolves exactly the token segments:
a piece free of the sentinel prefix can produce no match, a match cannot
straddle a piece/token boundary (the prefix contains `|` only at offset 0,
and every token starts with `|`), and a well-formed token always matches
itself exactly. -/

/-- Whether `tokPre` occurs (as a contiguous substring) anywhere in `p`. -/
def hasPreOccur : List Char → Bool
  | [] => false
  | c :: cs => tokPre.isPrefixOf (c :: cs) || hasPreOccur cs

/-- One segment of obfuscated text: a plain piece, or a minted token
together with the plaintext it replaced. -/
inductive Seg where
  | piece (p : List Char)
  | tok (t : List Char) (v : List Char)
deriving DecidableEq, Repr

/-- The text of a segment list. -/
def flatSegs : List Seg → List Char
  | [] => []
  | .piece p :: ss => p ++ flatSegs ss
  | .tok t _ :: ss => t ++ flatSegs ss

/-- The pre-obfuscation text a segment list came from: pieces are kept,
tokens are replaced by the plaintext they encode. -/
def origSegs : List Seg → List Char
  | [] => []
  | .piece p :: ss => p ++ origSegs ss
  | .tok _ v :: ss => v ++ origSegs ss

/-- The segment list after one detokenization scan: pieces are copied,
token segments are resolved through the store. -/
def joinResolve (db : TokenDB) (session_id : List Char) : List Seg → List Char
  | [] => []
  | .piece p :: ss => p ++ joinResolve db session_id ss
  | .tok t _ :: ss => resolveWith db session_id t ++ joinResolve db session_id ss

/-- A piece may not be directly followed by another piece (tokens separate
pieces in every decomposition the obfuscation pass produces). -/
def headNotPiece : List Seg → Prop
  | .piece _ :: _ => False
  | _ => True

/-- Well-formed decomposition: pieces carry no sentinel-prefix occurrence
and are separated by tokens; token segments are well-formed tokens. -/
def GoodSegs : List Seg → Prop
  | [] => True
  | .piece p :: ss => hasPreOccur p = false ∧ headNotPiece ss ∧ GoodSegs ss
  | .tok t _ :: ss => WfTok t ∧ GoodSegs ss

/-- Every token has a resolvable row mapping it to its recorded plaintext. -/
def Resolvable (db : TokenDB) (session_id : List Char) : List Seg → Prop
  | [] => True
  | .piece _ :: ss => Resolvable db session_id ss
  | .tok t v :: ss =>
    lookup_token_db db t session_id = some v ∧ Resolvable db session_id ss

theorem tokPre_drop_head (k : Nat) (h1 : 1 ≤ k) (h15 : k < 15) :
    (tokPre.drop k).head? ≠ some '|' := by
  interval_cases k <;> decide

theorem head?_take {Y : List Char} {n : Nat} (hn : 1 ≤ n) :
    (Y.take n).head? = Y.head? := by
  cases Y with
  | nil => simp
  | cons y ys =>
    cases n with
    | zero => omega
    | succ m => simp

/-- No `TOKEN_REGEX` match can start inside a clean piece, even when the
following text begins with a token. -/
theorem tryTokenMatch_none_of_clean {p rest : List Char}
    (hne : p ≠ [])
    (hclean : hasPreOccur p = false)
    (hhead : rest = [] ∨ rest.head? = some '|') :
    tryTokenMatch (p ++ rest) = none := by
  have hnopre : tokPre.isPrefixOf (p ++ rest) = false := by
    by_contra hcon
    simp only [Bool.not_eq_false] at hcon
    have hpref : tokPre <+: p ++ rest := List.isPrefixOf_iff_prefix.mp hcon
    have htake : tokPre = (p ++ rest).take tokPre.length :=
      List.prefix_iff_eq_take.mp hpref
    by_cases hk : tokPre.length ≤ p.length
    · -- the occurrence fits inside the piece, contradicting cleanliness
      have hfit : tokPre <+: p := by
        rw [List.take_append_eq_append_take] at htake
        have hz : tokPre.length - p.length = 0 := by omega
        rw [hz] at htake
        simp only [List.take_zero, List.append_nil] at htake
        rw [htake]
        exact List.take_prefix _ _
      have : tokPre.isPrefixOf p = true := List.isPrefixOf_iff_prefix.mpr hfit
      cases p with
      | nil => exact hne rfl
      | cons c cs =>
        have : hasPreOccur (c :: cs) = true := by
          simp only [hasPreOccur, Bool.or_eq_true]
          exact Or.inl this
        rw [hclean] at this
        exact Bool.false_ne_true this
    · -- the occurrence would straddle into `rest`, whose head is `|`
      push_neg at hk
      have hsplit : tokPre = p ++ rest.take (tokPre.length - p.length) := by
        rw [List.take_append_eq_append_take] at htake
        rwa [List.take_of_length_le (by omega)] at htake
      have hdropk : tokPre.drop p.length = rest.take (tokPre.length - p.length) := by
        conv_lhs => rw [hsplit]
        exact List.drop_left p _
      have hplen : 1 ≤ p.length := by
        cases p with
        | nil => exact absurd rfl hne
        | cons _ _ => simp
      have hlt : p.length < 15 := by
        have : tokPre.length = 15 := rfl
        omega
      have hge : 1 ≤ tokPre.length - p.length := by
        have : tokPre.length = 15 := rfl
        omega
      cases hhead with
      | inl hnil =>
        rw [hnil] at hdropk
        simp only [List.take_nil] at hdropk
        have : (tokPre.drop p.length).length = 0 := by rw [hdropk]; rfl
        simp only [List.length_drop] at this
        have : tokPre.length = 15 := rfl
        omega
      | inr hbar =>
        have hh : (tokPre.drop p.length).head? = some '|' := by
          rw [hdropk, head?_take hge, hbar]
        exact tokPre_drop_head p.length hplen hlt hh
  unfold tryTokenMatch
  rw [hnopre]
  simp

/-- Fuel does not matter for the scanner once it dominates the input length. -/
theorem scanSubGo_fuel (resolve : List Char → List Char) :
    ∀ (n1 : Nat) (s : List Char) (n2 : Nat), s.length ≤ n1 → s.length ≤ n2 →
      scanSubGo resolve n1 s = scanSubGo resolve n2 s := by
  intro n1
  induction n1 with
  | zero =>
    intro s n2 h1 _
    have : s = [] := List.eq_nil_of_length_eq_zero (by omega)
    subst this
    cases n2 <;> rfl
  | succ m1 ih =>
    intro s n2 h1 h2
    cases s with
    | nil => cases n2 <;> rfl
    | cons c cs =>
      cases n2 with
      | zero => simp at h2
      | succ m2 =>
        simp only [scanSubGo]
        cases htm : tryTokenMatch (c :: cs) with
        | some pr =>
          obtain ⟨tok, rest⟩ := pr
          have hrl := tryTokenMatch_rest_length htm
          simp only [List.length_cons] at h1 h2
          simp only [List.length_cons] at hrl
          dsimp only
          rw [ih rest m2 (by omega) (by omega)]
        | none =>
          simp only [List.length_cons] at h1 h2
          dsimp only
          rw [ih cs m2 (by omega) (by omega)]

/-- Scanning a clean piece copies it unchanged and continues after it. -/
theorem scanSubGo_piece (resolve : List Char → List Char) :
    ∀ (p : List Char) (rest : List Char) (n : Nat),
      hasPreOccur p = false → (rest = [] ∨ rest.head? = some '|') →
      p.length + rest.length ≤ n →
      scanSubGo resolve n (p ++ rest) = p ++ scanSubGo resolve (n - p.length) rest := by
  intro p
  induction p with
  | nil =>
    intro rest n _ _ _
    simp
  | cons c cs ih =>
    intro rest n hclean hhead hn
    have hn1 : 1 ≤ n := by
      simp only [List.length_cons] at hn
      omega
    obtain ⟨m, rfl⟩ : ∃ m, n = m + 1 := ⟨n - 1, by omega⟩
    have hmatch : tryTokenMatch ((c :: cs) ++ rest) = none :=
      tryTokenMatch_none_of_clean (by simp) hclean hhead
    simp only [List.cons_append] at hmatch
    simp only [List.cons_append, scanSubGo, List.append_eq, hmatch]
    have hcleancs : hasPreOccur cs = false := by
      have := hclean
      simp only [hasPreOccur, Bool.or_eq_false_iff] at this
      exact this.2
    have hrec := ih rest m hcleancs hhead (by
      simp only [List.length_cons] at hn
      omega)
    rw [hrec]
    have hfe : m - cs.length = m + 1 - (c :: cs).length := by
      simp only [List.length_cons]
      omega
    rw [hfe]

/-- Scanning a well-formed token resolves it and continues after it. -/
theorem scanSubGo_tok (resolve : List Char → List Char) (t rest : List Char)
    (n : Nat) (hw : WfTok t) (hn : t.length + rest.length ≤ n) :
    scanSubGo resolve n (t ++ rest) = resolve t ++ scanSubGo resolve (n - t.length) rest := by
  have hlen33 : 33 ≤ t.length := by
    obtain ⟨h, ht, _, hmin, _⟩ := hw
    subst ht
    simp only [List.length_append]
    have h1 : tokPre.length = 15 := rfl
    have h2 : tokSuf.length = 2 := rfl
    have h3 : hexMin = 16 := rfl
    rw [h3] at hmin
    omega
  obtain ⟨m, rfl⟩ : ∃ m, n = m + 1 := ⟨n - 1, by omega⟩
  have hmatch : tryTokenMatch (t ++ rest) = some (t, rest) := wfTok_tryMatch hw rest
  obtain ⟨h, ht, _, _, _⟩ := hw
  have hcons : ∃ t2, t = '|' :: t2 := by
    subst ht
    exact ⟨(chars "<PRIVATE_DATA_") ++ h ++ tokSuf, rfl⟩
  obtain ⟨t2, ht2⟩ := hcons
  rw [ht2] at hmatch ⊢
  simp only [List.cons_append] at hmatch
  simp only [List.cons_append, scanSubGo, List.append_eq, hmatch]
  have hrl : rest.length ≤ m := by
    rw [ht2] at hn hlen33
    simp only [List.length_cons] at hn hlen33
    omega
  rw [scanSubGo_fuel resolve m rest ((m + 1) - ('|' :: t2).length) hrl (by
    rw [ht2] at hn hlen33
    simp only [List.length_cons] at hn hlen33 ⊢
    omega)]

/-- On a well-formed decomposition the detokenization scan copies pieces
and resolves exactly the token segments. -/
theorem scanSubGo_flatSegs (db : TokenDB) (session_id : List Char) :
    ∀ (segs : List Seg) (n : Nat), GoodSegs segs → (flatSegs segs).length ≤ n →
      scanSubGo (resolveWith db session_id) n (flatSegs segs) =
        joinResolve db session_id segs := by
  intro segs
  induction segs with
  | nil =>
    intro n _ _
    cases n <;> rfl
  | cons s ss ih =>
    intro n hgood hn
    cases s with
    | piece p =>
      obtain ⟨hclean, hhnp, hgss⟩ := hgood
      have hhead : flatSegs ss = [] ∨ (flatSegs ss).head? = some '|' := by
        cases ss with
        | nil => exact Or.inl rfl
        | cons s2 ss2 =>
          cases s2 with
          | piece q => exact absurd hhnp (by simp [headNotPiece])
          | tok t v =>
            obtain ⟨hw, _⟩ := hgss
            obtain ⟨h, ht, _, _, _⟩ := hw
            right
            simp only [flatSegs, ht]
            rfl
      simp only [flatSegs] at hn ⊢
      rw [scanSubGo_piece _ p (flatSegs ss) n hclean hhead
        (by simpa [List.length_append] using hn)]
      rw [ih (n - p.length) hgss (by
        simp only [List.length_append] at hn
        omega)]
      rfl
    | tok t v =>
      obtain ⟨hw, hgss⟩ := hgood
      simp only [flatSegs] at hn ⊢
      rw [scanSubGo_tok _ t (flatSegs ss) n hw
        (by simpa [List.length_append] using hn)]
      rw [ih (n - t.length) hgss (by
        simp only [List.length_append] at hn
        omega)]
      rfl

/-- A lookup keyed to a session with no rows in the store always misses. -/
theorem lookup_token_db_none_of_no_session {db : TokenDB} {sid : List Char}
    (h : ∀ r ∈ db, r.session_id ≠ sid) (tok : List Char) :
    lookup_token_db db tok sid = none := by
  unfold lookup_token_db
  have hnone : db.find? (fun r => r.token = tok && r.session_id = sid) = none := by
    rw [List.find?_eq_none]
    intro r hr
    simp only [Bool.and_eq_true, decide_eq_true_eq, not_and]
    intro _ hs
    exact h r hr hs
  rw [hnone]
  rfl

/-- A successful match splits the input: the matched token text followed by
the returned remainder is the original input. -/
theorem tryTokenMatch_some_append {s tok rest : List Char}
    (h : tryTokenMatch s = some (tok, rest)) : tok ++ rest = s := by
  unfold tryTokenMatch at h
  by_cases hpre : tokPre.isPrefixOf s = true
  case neg => rw [if_neg hpre] at h; exact absurd h (by simp)
  rw [if_pos hpre] at h
  by_cases hr : hexMin ≤ hexRun (s.drop tokPre.length) ∧
      hexRun (s.drop tokPre.length) ≤ hexMax
  case neg => rw [if_neg hr] at h; exact absurd h (by simp)
  rw [if_pos hr] at h
  by_cases hsuf : tokSuf.isPrefixOf
      ((s.drop tokPre.length).drop (hexRun (s.drop tokPre.length))) = true
  case neg => rw [if_neg hsuf] at h; exact absurd h (by simp)
  rw [if_pos hsuf] at h
  simp only [Option.some.injEq, Prod.mk.injEq] at h
  obtain ⟨htok, hrest⟩ := h
  subst htok
  subst hrest
  rw [List.drop_drop, List.drop_drop]
  have he : tokPre.length + (hexRun (s.drop tokPre.length) + tokSuf.length)
      = tokPre.length + hexRun (s.drop tokPre.length) + tokSuf.length := by
    omega
  rw [he, List.take_append_drop]

/-- If the store holds no row for this session, the token scanner resolves
nothing and reproduces its input verbatim. -/
theorem scanSubGo_id_of_no_session {db : TokenDB} {sid : List Char}
    (h : ∀ r ∈ db, r.session_id ≠ sid) :
    ∀ (fuel : Nat) (s : List Char), scanSubGo (resolveWith db sid) fuel s = s := by
  intro fuel
  induction fuel with
  | zero => intro s; rfl
  | succ m ih =>
    intro s
    cases s with
    | nil => rfl
    | cons c cs =>
      simp only [scanSubGo]
      cases htm : tryTokenMatch (c :: cs) with
      | some pr =>
        obtain ⟨tok, rest⟩ := pr
        dsimp only
        rw [ih rest]
        have hres : resolveWith db sid tok = tok := by
          unfold resolveWith
          rw [lookup_token_db_none_of_no_session h tok]
        rw [hres]
        exact tryTokenMatch_some_append htm
      | none =>
        dsimp only
        rw [ih cs]

/-! ## Claim C6: detokenization is session-scoped and fail-open -/

/-- C6: detokenization is session-scoped and fail-open. (1) On any
well-formed interleaving of clean text pieces and tokens, each token is
replaced exactly when a stored record exists for that `(token, session_id)`
pair — it then becomes the recorded plaintext — and any token with no record
for this session passes through to the output unchanged, with pieces copied
verbatim; no error is possible. (2) For every inbound text whatsoever, if the
store holds no row for this session (for example every token was minted for a
different session), detokenization returns the text unchanged. -/
theorem c6_detokenize_session_scoped (db : TokenDB) (session_id : List Char) :
    (∀ segs : List Seg, GoodSegs segs →
      detokenize_text db session_id (flatSegs segs) = joinResolve db session_id segs) ∧
    ((∀ r ∈ db, r.session_id ≠ session_id) →
      ∀ text : List Char, detokenize_text db session_id text = text) := by
  constructor
  · intro segs hgood
    unfold detokenize_text
    exact scanSubGo_flatSegs db session_id segs (flatSegs segs).length hgood le_rfl
  · intro h text
    unfold detokenize_text
    exact scanSubGo_id_of_no_session h text.length text

/-- The C6/C5 example token: 64 zero hex digits between the sentinels. -/
def exTok : List Char := generate_token_hex (List.replicate 64 '0')

/-- The C6 example store: `exTok` is recorded for session `X` only. -/
def exDb : TokenDB :=
  [{ token := exTok, session_id := chars "X", value_plaintext := chars "a@b.com",
     categories := [chars "EMAIL_ADDRESS"], source_kind := chars "tool",
     source_name := [] }]

/-- The C6 example text: a clean piece followed by the stored token. -/
def exSegs : List Seg := [.piece (chars "Contact "), .tok exTok (chars "a@b.com")]

theorem exTok_wf : WfTok exTok :=
  ⟨List.replicate 64 '0', rfl, by decide, by decide, by decide⟩

theorem exSegs_good : GoodSegs exSegs := by
  refine ⟨by decide, trivial, exTok_wf, trivial⟩

/-- Witness for `c6_detokenize_session_scoped`: the stored session resolves
the token to its plaintext, a different session leaves the text unchanged. -/
theorem c6_witness :
    detokenize_text exDb (chars "X") (flatSegs exSegs) = chars "Contact a@b.com" ∧
      detokenize_text exDb (chars "Y") (flatSegs exSegs) = flatSegs exSegs := by
  constructor
  · rw [(c6_detokenize_session_scoped exDb (chars "X")).1 exSegs exSegs_good]
    rfl
  · exact (c6_detokenize_session_scoped exDb (chars "Y")).2 (by decide) (flatSegs exSegs)

/-! ## Infrastructure for the obfuscation-pass theorem -/

/-- A valid hex payload for a minted token: hex characters within the
`TOKEN_REGEX` length bounds (a 32-byte draw yields 64 such characters). -/
def HexPayload (h : List Char) : Prop :=
  (∀ ch ∈ h, isHexChar ch = true) ∧ hexMin ≤ h.length ∧ h.length ≤ hexMax

theorem wfTok_of_hexPayload {h : List Char} (hh : HexPayload h) :
    WfTok (generate_token_hex h) :=
  ⟨h, rfl, hh.1, hh.2.1, hh.2.2⟩

theorem generate_token_hex_inj {h1 h2 : List Char}
    (h : generate_token_hex h1 = generate_token_hex h2) : h1 = h2 := by
  unfold generate_token_hex at h
  have h2' := List.append_cancel_right h
  exact List.append_cancel_left h2'

theorem flatSegs_append (A B : List Seg) :
    flatSegs (A ++ B) = flatSegs A ++ flatSegs B := by
  induction A with
  | nil => simp [flatSegs]
  | cons s A ih =>
    cases s <;> simp [flatSegs, ih]

theorem origSegs_append (A B : List Seg) :
    origSegs (A ++ B) = origSegs A ++ origSegs B := by
  induction A with
  | nil => simp [origSegs]
  | cons s A ih =>
    cases s <;> simp [origSegs, ih]

theorem resolvable_append {db : TokenDB} {sid : List Char} {A B : List Seg} :
    Resolvable db sid (A ++ B) ↔ Resolvable db sid A ∧ Resolvable db sid B := by
  induction A with
  | nil => simp [Resolvable]
  | cons s A ih =>
    cases s with
    | piece p => simpa [Resolvable] using ih
    | tok t v =>
      simp only [List.cons_append, Resolvable, List.append_eq, ih, and_assoc]

theorem lookup_token_db_append_of_some {db : TokenDB} {rows : TokenDB}
    {t sid v : List Char} (h : lookup_token_db db t sid = some v) :
    lookup_token_db (db ++ rows) t sid = some v := by
  unfold lookup_token_db at h ⊢
  rw [List.find?_append]
  cases hf : db.find? (fun row => row.token = t && row.session_id = sid) with
  | none => rw [hf] at h; exact absurd h (by simp)
  | some r =>
    rw [hf] at h
    simp only [Option.or_some] at *
    exact h

theorem lookup_token_db_fresh {db1 db2 : TokenDB} {t sid v : List Char}
    (hfresh : ∀ r ∈ db1, r.token ≠ t) (row : TokenRow)
    (hrow : row.token = t ∧ row.session_id = sid ∧ row.value_plaintext = v) :
    lookup_token_db (db1 ++ row :: db2) t sid = some v := by
  unfold lookup_token_db
  rw [List.find?_append]
  have hnone : db1.find? (fun r => r.token = t && r.session_id = sid) = none := by
    rw [List.find?_eq_none]
    intro r hr
    simp only [Bool.and_eq_true, decide_eq_true_eq, not_and]
    intro ht
    exact absurd ht (hfresh r hr)
  rw [hnone]
  have hhit : (row :: db2).find? (fun r => r.token = t && r.session_id = sid) =
      some row := by
    rw [List.find?_cons_of_pos]
    simp only [Bool.and_eq_true, decide_eq_true_eq]
    exact ⟨hrow.1, hrow.2.1⟩
  rw [hhit]
  simp [hrow.2.2]

theorem resolvable_extend {db : TokenDB} {rows : TokenDB} {sid : List Char} :
    ∀ {segs : List Seg}, Resolvable db sid segs → Resolvable (db ++ rows) sid segs := by
  intro segs
  induction segs with
  | nil => intro h; trivial
  | cons s ss ih =>
    intro h
    cases s with
    | piece p => exact ih h
    | tok t v => exact ⟨lookup_token_db_append_of_some h.1, ih h.2⟩

theorem hasPreOccur_tail {c : Char} {cs : List Char}
    (h : hasPreOccur (c :: cs) = false) : hasPreOccur cs = false := by
  simp only [hasPreOccur, Bool.or_eq_false_iff] at h
  exact h.2

theorem hasPreOccur_drop {p : List Char} (h : hasPreOccur p = false) (n : Nat) :
    hasPreOccur (p.drop n) = false := by
  induction p generalizing n with
  | nil => simp [List.drop_nil, hasPreOccur]
  | cons c cs ih =>
    cases n with
    | zero => exact h
    | succ m => exact ih (hasPreOccur_tail h) m

theorem hasPreOccur_true_of_take {p : List Char} {n : Nat}
    (h : hasPreOccur (p.take n) = true) : hasPreOccur p = true := by
  induction p generalizing n with
  | nil => simp [List.take_nil, hasPreOccur] at h
  | cons c cs ih =>
    cases n with
    | zero => simp [List.take_zero, hasPreOccur] at h
    | succ m =>
      simp only [List.take_succ_cons, hasPreOccur, Bool.or_eq_true] at h ⊢
      cases h with
      | inl hp =>
        left
        have hpre : tokPre <+: c :: cs.take m := List.isPrefixOf_iff_prefix.mp hp
        have : tokPre <+: c :: cs := by
          calc tokPre <+: c :: cs.take m := hpre
            _ <+: c :: cs := by
              have := List.take_prefix (m + 1) (c :: cs)
              simpa using this
        exact List.isPrefixOf_iff_prefix.mpr this
      | inr hrest => exact Or.inr (ih hrest)

theorem hasPreOccur_take {p : List Char} (h : hasPreOccur p = false) (n : Nat) :
    hasPreOccur (p.take n) = false := by
  by_contra hcon
  simp only [Bool.not_eq_false] at hcon
  rw [hasPreOccur_true_of_take hcon] at h
  simp at h

/-- The plain-text regions of a decomposition laid out from position `c`. -/
def pieceRegions (c : Nat) : List Seg → List (Nat × Nat)
  | [] => []
  | .piece p :: ss => (c, c + p.length) :: pieceRegions (c + p.length) ss
  | .tok t _ :: ss => pieceRegions (c + t.length) ss

/-- The finding's span lies inside one plain-text region. -/
def InPiece (c : Nat) (segs : List Seg) (f : Finding) : Prop :=
  ∃ r ∈ pieceRegions c segs, r.1 ≤ f.start ∧ f.stop ≤ r.2

theorem pieceRegions_append (A B : List Seg) (c : Nat) :
    pieceRegions c (A ++ B) =
      pieceRegions c A ++ pieceRegions (c + (flatSegs A).length) B := by
  induction A generalizing c with
  | nil => simp [pieceRegions, flatSegs]
  | cons s A ih =>
    cases s with
    | piece p =>
      simp only [List.cons_append, List.append_eq, pieceRegions, ih, flatSegs,
        List.length_append]
      have heq : c + p.length + (flatSegs A).length =
          c + (p.length + (flatSegs A).length) := by omega
      rw [heq]
    | tok t v =>
      simp only [List.cons_append, List.append_eq, pieceRegions, ih, flatSegs,
        List.length_append]
      have heq : c + t.length + (flatSegs A).length =
          c + (t.length + (flatSegs A).length) := by omega
      rw [heq]

theorem pieceRegions_bounds {c : Nat} :
    ∀ {segs : List Seg}, ∀ r ∈ pieceRegions c segs,
      c ≤ r.1 ∧ r.1 ≤ r.2 ∧ r.2 ≤ c + (flatSegs segs).length := by
  intro segs
  induction segs generalizing c with
  | nil => intro r hr; simp [pieceRegions] at hr
  | cons s ss ih =>
    intro r hr
    cases s with
    | piece p =>
      simp only [pieceRegions, List.mem_cons] at hr
      cases hr with
      | inl heq =>
        subst heq
        simp only [flatSegs, List.length_append]
        omega
      | inr hmem =>
        have := ih r hmem
        simp only [flatSegs, List.length_append]
        omega
    | tok t v =>
      simp only [pieceRegions] at hr
      have := ih r hr
      simp only [flatSegs, List.length_append]
      omega

theorem mem_pieceRegions {c : Nat} :
    ∀ {segs : List Seg} {r : Nat × Nat}, r ∈ pieceRegions c segs →
      ∃ A p B, segs = A ++ .piece p :: B ∧
        r.1 = c + (flatSegs A).length ∧ r.2 = r.1 + p.length := by
  intro segs
  induction segs generalizing c with
  | nil => intro r hr; simp [pieceRegions] at hr
  | cons s ss ih =>
    intro r hr
    cases s with
    | piece p =>
      simp only [pieceRegions, List.mem_cons] at hr
      cases hr with
      | inl heq =>
        subst heq
        exact ⟨[], p, ss, rfl, by simp [flatSegs], rfl⟩
      | inr hmem =>
        obtain ⟨A, q, B, hseg, h1, h2⟩ := ih hmem
        refine ⟨.piece p :: A, q, B, by rw [hseg]; rfl, ?_, h2⟩
        simp only [flatSegs, List.length_append, h1]
        omega
    | tok t v =>
      simp only [pieceRegions] at hr
      obtain ⟨A, q, B, hseg, h1, h2⟩ := ih hr
      refine ⟨.tok t v :: A, q, B, by rw [hseg]; rfl, ?_, h2⟩
      simp only [flatSegs, List.length_append, h1]
      omega

theorem headNotPiece_append {A : List Seg} {B C : List Seg} (hA : A ≠ []) :
    headNotPiece (A ++ B) ↔ headNotPiece (A ++ C) := by
  cases A with
  | nil => exact absurd rfl hA
  | cons s A2 => cases s <;> simp [headNotPiece]

theorem goodSegs_extract :
    ∀ {A : List Seg} {p : List Char} {B : List Seg},
      GoodSegs (A ++ .piece p :: B) →
        hasPreOccur p = false ∧ headNotPiece B ∧ GoodSegs B := by
  intro A
  induction A with
  | nil =>
    intro p B h
    exact h
  | cons s A2 ih =>
    intro p B h
    cases s with
    | piece q => exact ih h.2.2
    | tok t v => exact ih h.2

theorem goodSegs_replace :
    ∀ {A : List Seg} {p : List Char} {B C : List Seg},
      GoodSegs (A ++ .piece p :: B) → GoodSegs C → GoodSegs (A ++ C) := by
  intro A
  induction A with
  | nil =>
    intro p B C _ hC
    exact hC
  | cons s A2 ih =>
    intro p B C h hC
    cases s with
    | piece q =>
      obtain ⟨hq, hhead, hrest⟩ := h
      refine ⟨hq, ?_, ih hrest hC⟩
      cases hA2 : A2 with
      | nil =>
        subst hA2
        exact absurd hhead (by simp [headNotPiece])
      | cons s2 A3 =>
        subst hA2
        exact ((headNotPiece_append (by simp)).mp hhead : _)
    | tok t v =>
      exact ⟨h.1, ih h.2 hC⟩

theorem sliceC_eq_drop_take (s : List Char) (a b : Nat) :
    sliceC s a b = (s.drop a).take (b - a) := by
  unfold sliceC
  rw [List.drop_take]

/-- The skip check of `replace_findings` — a sliced `startswith` — agrees
with prefix occurrence at the position. -/
theorem skipCheck_eq (X : List Char) (i : Nat) :
    tokPre.isPrefixOf (sliceC X i (i + tokPre.length)) =
      tokPre.isPrefixOf (X.drop i) := by
  rw [sliceC_eq_drop_take]
  have hn : i + tokPre.length - i = tokPre.length := by omega
  rw [hn]
  by_cases hb : tokPre.isPrefixOf (X.drop i) = true
  · rw [hb]
    apply List.isPrefixOf_iff_prefix.mpr
    have hp := List.isPrefixOf_iff_prefix.mp hb
    rw [List.prefix_iff_eq_take] at hp ⊢
    rw [List.take_take]
    simpa using hp
  · have hb2 : tokPre.isPrefixOf (X.drop i) = false := by
      cases h : tokPre.isPrefixOf (X.drop i) with
      | false => rfl
      | true => exact absurd h hb
    rw [hb2]
    cases hc : tokPre.isPrefixOf ((X.drop i).take tokPre.length) with
    | false => rfl
    | true =>
      exfalso
      have hp := List.isPrefixOf_iff_prefix.mp hc
      have hp2 : tokPre <+: X.drop i :=
        hp.trans (List.take_prefix tokPre.length (X.drop i))
      rw [List.isPrefixOf_iff_prefix.mpr hp2] at hb2
      exact Bool.noConfusion hb2

theorem replaceGo_nil (rnd : Nat → List Char) (sid input : List Char) (c : Nat)
    (st : ObSt) : replaceFindingsGo rnd sid input [] c st = (input.drop c, st) := rfl

theorem replaceGo_skip_lt {rnd : Nat → List Char} {sid input : List Char}
    {f : Finding} {fs : List Finding} {c : Nat} {st : ObSt} (h : f.start < c) :
    replaceFindingsGo rnd sid input (f :: fs) c st =
      replaceFindingsGo rnd sid input fs c st := by
  conv_lhs => rw [replaceFindingsGo]
  rw [if_pos h]

theorem replaceGo_skip_pre {rnd : Nat → List Char} {sid input : List Char}
    {f : Finding} {fs : List Finding} {c : Nat} {st : ObSt}
    (h1 : ¬ f.start < c)
    (h2 : tokPre.isPrefixOf (sliceC input f.start (f.start + tokPre.length)) = true) :
    replaceFindingsGo rnd sid input (f :: fs) c st =
      replaceFindingsGo rnd sid input fs c st := by
  conv_lhs => rw [replaceFindingsGo]
  rw [if_neg h1, if_pos h2]

/-- The token row minted when a finding is processed. -/
def mintedRow (rnd : Nat → List Char) (sid : List Char) (f : Finding) (i : Nat) :
    TokenRow :=
  { token := generate_token_hex (rnd i), session_id := sid,
    value_plaintext := f.value, categories := [f.category],
    source_kind := chars "tool", source_name := [] }

theorem replaceGo_step {rnd : Nat → List Char} {sid input : List Char}
    {f : Finding} {fs : List Finding} {c : Nat} {st : ObSt}
    (h1 : ¬ f.start < c)
    (h2 : tokPre.isPrefixOf (sliceC input f.start (f.start + tokPre.length)) = false) :
    replaceFindingsGo rnd sid input (f :: fs) c st =
      (sliceC input c f.start ++ generate_token_hex (rnd st.ctr) ++
        (replaceFindingsGo rnd sid input fs f.stop
          ⟨store_token_db st.db (mintedRow rnd sid f st.ctr), st.ctr + 1⟩).1,
       (replaceFindingsGo rnd sid input fs f.stop
          ⟨store_token_db st.db (mintedRow rnd sid f st.ctr), st.ctr + 1⟩).2) := by
  conv_lhs => rw [replaceFindingsGo]
  rw [if_neg h1, if_neg (by simp [h2])]
  rfl

/-- Positional splitting of the text around a span lying inside the piece
`p` of the decomposition `fA ++ p ++ fB` of `input.drop c`. -/
theorem text_split {input : List Char} {c : Nat} {fA p fB : List Char}
    (hdec : input.drop c = fA ++ (p ++ fB))
    {st1 st2 : Nat}
    (hs1 : c + fA.length ≤ st1) (h12 : st1 ≤ st2)
    (h2p : st2 ≤ c + fA.length + p.length) :
    sliceC input c st1 = fA ++ p.take (st1 - (c + fA.length)) ∧
      input.drop st2 = p.drop (st2 - (c + fA.length)) ++ fB ∧
      sliceC input st1 st2 = (p.drop (st1 - (c + fA.length))).take (st2 - st1) := by
  refine ⟨?_, ?_, ?_⟩
  · rw [sliceC_eq_drop_take, hdec]
    rw [List.take_append_eq_append_take]
    rw [List.take_of_length_le (by omega)]
    rw [List.take_append_eq_append_take]
    have hz : st1 - c - fA.length - p.length = 0 := by omega
    rw [hz]
    simp only [List.take_zero, List.append_nil]
    have he : st1 - c - fA.length = st1 - (c + fA.length) := by omega
    rw [he]
  · have hdd : input.drop st2 = (input.drop c).drop (st2 - c) := by
      rw [List.drop_drop]
      have : c + (st2 - c) = st2 := by omega
      rw [this]
    rw [hdd, hdec]
    rw [List.drop_append_eq_append_drop]
    rw [List.drop_eq_nil_of_le (by omega : fA.length ≤ st2 - c)]
    rw [List.drop_append_eq_append_drop]
    have hz : st2 - c - fA.length - p.length = 0 := by omega
    rw [hz]
    simp only [List.nil_append, List.drop_zero]
    have he : st2 - c - fA.length = st2 - (c + fA.length) := by omega
    rw [he]
  · have hdd : input.drop st1 = (input.drop c).drop (st1 - c) := by
      rw [List.drop_drop]
      have : c + (st1 - c) = st1 := by omega
      rw [this]
    rw [sliceC_eq_drop_take, hdd, hdec]
    rw [List.drop_append_eq_append_drop]
    rw [List.drop_eq_nil_of_le (by omega : fA.length ≤ st1 - c)]
    rw [List.drop_append_eq_append_drop]
    have hz : st1 - c - fA.length - p.length = 0 := by omega
    rw [hz]
    simp only [List.nil_append, List.drop_zero]
    rw [List.take_append_eq_append_take]
    have hz2 : st2 - st1 - (p.drop (st1 - c - fA.length)).length = 0 := by
      simp only [List.length_drop]
      omega
    rw [hz2]
    simp only [List.take_zero, List.append_nil]
    have he : st1 - c - fA.length = st1 - (c + fA.length) := by omega
    rw [he]

/-- One `replace_findings` pass maps a well-formed decomposition to a finer
well-formed decomposition: pieces are split around the processed findings,
each processed span becomes a fresh resolvable token whose recorded
plaintext is the replaced text, nothing else changes, and the store grows
only by the minted rows. -/
theorem replaceGo_segs (rnd : Nat → List Char) (sid : List Char) (input : List Char) :
    ∀ (fs : List Finding) (c : Nat) (st : ObSt) (segs : List Seg),
      input.drop c = flatSegs segs →
      c ≤ input.length →
      GoodSegs segs →
      Resolvable st.db sid segs →
      List.Pairwise (fun a b => a.start ≤ b.start) fs →
      (∀ f ∈ fs, f.start < f.stop ∧ f.stop ≤ input.length ∧
        f.value = sliceC input f.start f.stop) →
      (∀ f ∈ fs, f.start < c ∨ tokPre.isPrefixOf (input.drop f.start) = true ∨
        InPiece c segs f) →
      (∀ i, st.ctr ≤ i → i < st.ctr + fs.length → HexPayload (rnd i)) →
      (∀ i, st.ctr ≤ i → i < st.ctr + fs.length →
        ∀ r ∈ st.db, r.token ≠ generate_token_hex (rnd i)) →
      (∀ i j, st.ctr ≤ i → i < st.ctr + fs.length → st.ctr ≤ j →
        j < st.ctr + fs.length → i ≠ j → rnd i ≠ rnd j) →
      ∃ segs2 : List Seg,
        (replaceFindingsGo rnd sid input fs c st).1 = flatSegs segs2 ∧
        origSegs segs2 = origSegs segs ∧
        GoodSegs segs2 ∧
        Resolvable (replaceFindingsGo rnd sid input fs c st).2.db sid segs2 ∧
        st.ctr ≤ (replaceFindingsGo rnd sid input fs c st).2.ctr ∧
        (replaceFindingsGo rnd sid input fs c st).2.ctr ≤ st.ctr + fs.length ∧
        ∃ rows : TokenDB,
          (replaceFindingsGo rnd sid input fs c st).2.db = st.db ++ rows ∧
          ∀ r ∈ rows, r.session_id = sid ∧ ∃ i : Nat, st.ctr ≤ i ∧
            i < (replaceFindingsGo rnd sid input fs c st).2.ctr ∧
            r.token = generate_token_hex (rnd i) := by
  intro fs
  induction fs with
  | nil =>
    intro c st segs hdec hc hgood hres hsort hval hpos hhex hfresh hinj
    rw [replaceGo_nil]
    exact ⟨segs, hdec, rfl, hgood, hres, le_rfl, by simp, [], by simp, by simp⟩
  | cons f fs ih =>
    intro c st segs hdec hc hgood hres hsort hval hpos hhex hfresh hinj
    have hsort2 : List.Pairwise (fun a b => a.start ≤ b.start) fs :=
      (List.pairwise_cons.mp hsort).2
    have hsortf : ∀ g ∈ fs, f.start ≤ g.start := (List.pairwise_cons.mp hsort).1
    have hval2 : ∀ g ∈ fs, g.start < g.stop ∧ g.stop ≤ input.length ∧
        g.value = sliceC input g.start g.stop :=
      fun g hg => hval g (List.mem_cons_of_mem f hg)
    by_cases h1 : f.start < c
    · rw [replaceGo_skip_lt h1]
      obtain ⟨segs2, hA, hB, hC, hD, hE, hF, rows, hG, hH⟩ :=
        ih c st segs hdec hc hgood hres hsort2 hval2
          (fun g hg => hpos g (List.mem_cons_of_mem f hg))
          (fun i hi1 hi2 => hhex i hi1 (by simp only [List.length_cons]; omega))
          (fun i hi1 hi2 => hfresh i hi1 (by simp only [List.length_cons]; omega))
          (fun i j hi1 hi2 hj1 hj2 => hinj i j hi1
            (by simp only [List.length_cons]; omega) hj1
            (by simp only [List.length_cons]; omega))
      exact ⟨segs2, hA, hB, hC, hD, hE, by simp only [List.length_cons]; omega,
        rows, hG, hH⟩
    by_cases h2 : tokPre.isPrefixOf (sliceC input f.start (f.start + tokPre.length)) = true
    · rw [replaceGo_skip_pre h1 h2]
      obtain ⟨segs2, hA, hB, hC, hD, hE, hF, rows, hG, hH⟩ :=
        ih c st segs hdec hc hgood hres hsort2 hval2
          (fun g hg => hpos g (List.mem_cons_of_mem f hg))
          (fun i hi1 hi2 => hhex i hi1 (by simp only [List.length_cons]; omega))
          (fun i hi1 hi2 => hfresh i hi1 (by simp only [List.length_cons]; omega))
          (fun i j hi1 hi2 hj1 hj2 => hinj i j hi1
            (by simp only [List.length_cons]; omega) hj1
            (by simp only [List.length_cons]; omega))
      exact ⟨segs2, hA, hB, hC, hD, hE, by simp only [List.length_cons]; omega,
        rows, hG, hH⟩
    -- the processed case
    have h2f : tokPre.isPrefixOf (sliceC input f.start (f.start + tokPre.length)) = false := by
      cases hx : tokPre.isPrefixOf (sliceC input f.start (f.start + tokPre.length)) with
      | false => rfl
      | true => exact absurd hx h2
    rw [replaceGo_step h1 h2f]
    have hfval := hval f (List.mem_cons_self f fs)
    have hnopre : tokPre.isPrefixOf (input.drop f.start) = false := by
      rw [← skipCheck_eq input f.start]
      exact h2f
    have hinp : InPiece c segs f := by
      rcases hpos f (List.mem_cons_self f fs) with hlt | hpre | hip
      · exact absurd hlt h1
      · rw [hpre] at hnopre
        exact absurd hnopre (by simp)
      · exact hip
    obtain ⟨r, hrmem, hr1, hr2⟩ := hinp
    obtain ⟨A, p, B, hsegs, hrA, hrB⟩ := mem_pieceRegions hrmem
    have hs0le : c + (flatSegs A).length ≤ f.start := by rw [← hrA]; exact hr1
    have hstop : f.stop ≤ c + (flatSegs A).length + p.length := by
      rw [← hrA]
      rw [hrB] at hr2
      exact hr2
    have hflat : input.drop c = flatSegs A ++ (p ++ flatSegs B) := by
      rw [hdec, hsegs, flatSegs_append]
      rfl
    obtain ⟨hsl1, hsl2, hsl3⟩ := text_split hflat hs0le (le_of_lt hfval.1) hstop
    -- relative offsets inside the piece
    have ha2 : f.start - (c + (flatSegs A).length) < p.length := by omega
    have hb2 : f.stop - (c + (flatSegs A).length) ≤ p.length := by omega
    have hpiececlean : hasPreOccur p = false := (goodSegs_extract (hsegs ▸ hgood)).1
    have hheadB : headNotPiece B := (goodSegs_extract (hsegs ▸ hgood)).2.1
    have hgoodB : GoodSegs B := (goodSegs_extract (hsegs ▸ hgood)).2.2
    have hresAB := (resolvable_append (A := A) (B := .piece p :: B)).mp (hsegs ▸ hres)
    -- the fresh token for this finding
    have hpay : HexPayload (rnd st.ctr) := by
      apply hhex st.ctr le_rfl
      simp only [List.length_cons]
      omega
    have hwftok : WfTok (generate_token_hex (rnd st.ctr)) := wfTok_of_hexPayload hpay
    -- apply the induction hypothesis after the processed finding
    have hdec2 : input.drop f.stop =
        flatSegs (.piece (p.drop (f.stop - (c + (flatSegs A).length))) :: B) := by
      rw [hsl2]
      rfl
    have hgood2 : GoodSegs (.piece (p.drop (f.stop - (c + (flatSegs A).length))) :: B) :=
      ⟨hasPreOccur_drop hpiececlean _, hheadB, hgoodB⟩
    have hres2 : Resolvable (store_token_db st.db (mintedRow rnd sid f st.ctr)) sid
        (.piece (p.drop (f.stop - (c + (flatSegs A).length))) :: B) := by
      show Resolvable (st.db ++ [mintedRow rnd sid f st.ctr]) sid _
      exact resolvable_extend (hresAB.2 : Resolvable st.db sid (.piece p :: B))
    have hpos2 : ∀ g ∈ fs, g.start < f.stop ∨
        tokPre.isPrefixOf (input.drop g.start) = true ∨
        InPiece f.stop (.piece (p.drop (f.stop - (c + (flatSegs A).length))) :: B) g := by
      intro g hg
      rcases hpos g (List.mem_cons_of_mem f hg) with hlt | hpre | hip
      · left; omega
      · right; left; exact hpre
      · obtain ⟨r2, hr2mem, hr21, hr22⟩ := hip
        rw [hsegs, pieceRegions_append] at hr2mem
        rw [List.mem_append] at hr2mem
        cases hr2mem with
        | inl hInA =>
          exfalso
          have hbnd := pieceRegions_bounds r2 hInA
          have hgval := hval2 g hg
          have hgf := hsortf g hg
          omega
        | inr hInPB =>
          simp only [pieceRegions, List.mem_cons] at hInPB
          cases hInPB with
          | inl hsame =>
            subst hsame
            simp only at hr21 hr22
            by_cases hglt : g.start < f.stop
            · left; exact hglt
            · right; right
              refine ⟨(f.stop, f.stop +
                (p.drop (f.stop - (c + (flatSegs A).length))).length), ?_, by omega, ?_⟩
              · simp only [pieceRegions]
                exact List.mem_cons_self _ _
              · simp only [List.length_drop]
                omega
          | inr hInB =>
            right; right
            have hoff : f.stop + (p.drop (f.stop - (c + (flatSegs A).length))).length =
                c + (flatSegs A).length + p.length := by
              simp only [List.length_drop]
              omega
            refine ⟨r2, ?_, hr21, hr22⟩
            simp only [pieceRegions, hoff]
            exact List.mem_cons_of_mem _ hInB
    have hdb2fresh : ∀ i, st.ctr + 1 ≤ i → i < st.ctr + 1 + fs.length →
        ∀ r3 ∈ st.db ++ [mintedRow rnd sid f st.ctr],
          r3.token ≠ generate_token_hex (rnd i) := by
      intro i hi1 hi2 r3 hr3
      rw [List.mem_append] at hr3
      cases hr3 with
      | inl hold =>
        apply hfresh i (by omega) (by simp only [List.length_cons]; omega) r3 hold
      | inr hnew =>
        simp only [List.mem_singleton] at hnew
        subst hnew
        show generate_token_hex (rnd st.ctr) ≠ generate_token_hex (rnd i)
        intro hcon
        have := generate_token_hex_inj hcon
        exact hinj st.ctr i le_rfl (by simp only [List.length_cons]; omega)
          (by omega) (by simp only [List.length_cons]; omega) (by omega) this
    have hctr2simp : (⟨store_token_db st.db (mintedRow rnd sid f st.ctr),
        st.ctr + 1⟩ : ObSt).ctr = st.ctr + 1 := rfl
    obtain ⟨segsRec, hflatR, horigR, hgoodR, hresR, hctr1R, hctr2R, rowsR, hdbR, hrowsR⟩ :=
      ih f.stop ⟨store_token_db st.db (mintedRow rnd sid f st.ctr), st.ctr + 1⟩
        (.piece (p.drop (f.stop - (c + (flatSegs A).length))) :: B)
        hdec2 hfval.2.1 hgood2 hres2 hsort2 hval2 hpos2
        (fun i hi1 hi2 => hhex i (by rw [hctr2simp] at hi1; omega)
          (by rw [hctr2simp] at hi1 hi2; simp only [List.length_cons]; omega))
        hdb2fresh
        (fun i j hi1 hi2 hj1 hj2 => hinj i j
          (by rw [hctr2simp] at hi1; omega)
          (by rw [hctr2simp] at hi1 hi2; simp only [List.length_cons]; omega)
          (by rw [hctr2simp] at hj1; omega)
          (by rw [hctr2simp] at hj1 hj2; simp only [List.length_cons]; omega))
    -- the refined decomposition
    refine ⟨A ++ (.piece (p.take (f.start - (c + (flatSegs A).length))) ::
      .tok (generate_token_hex (rnd st.ctr)) f.value :: segsRec), ?_, ?_, ?_, ?_, ?_, ?_, ?_⟩
    · -- flattened output text
      rw [flatSegs_append]
      show sliceC input c f.start ++ generate_token_hex (rnd st.ctr) ++ _ =
        flatSegs A ++ (p.take (f.start - (c + (flatSegs A).length)) ++
          (generate_token_hex (rnd st.ctr) ++ flatSegs segsRec))
      rw [hsl1, hflatR]
      simp [List.append_assoc]
    · -- original text is restored
      rw [origSegs_append, hsegs, origSegs_append]
      show origSegs A ++ (p.take (f.start - (c + (flatSegs A).length)) ++
          (f.value ++ origSegs segsRec)) = origSegs A ++ (p ++ origSegs B)
      rw [horigR]
      show _ ++ (_ ++ (f.value ++
        (p.drop (f.stop - (c + (flatSegs A).length)) ++ origSegs B))) = _
      have hvalue : f.value =
          (p.drop (f.start - (c + (flatSegs A).length))).take
            (f.stop - (c + (flatSegs A).length) - (f.start - (c + (flatSegs A).length))) := by
        rw [hfval.2.2, hsl3]
        congr 1
        omega
      rw [hvalue]
      have hp : p.take (f.start - (c + (flatSegs A).length)) ++
          ((p.drop (f.start - (c + (flatSegs A).length))).take
            (f.stop - (c + (flatSegs A).length) - (f.start - (c + (flatSegs A).length))) ++
            p.drop (f.stop - (c + (flatSegs A).length))) = p := by
        rw [← List.append_assoc, ← List.take_add]
        have he : f.start - (c + (flatSegs A).length) +
            (f.stop - (c + (flatSegs A).length) - (f.start - (c + (flatSegs A).length))) =
            f.stop - (c + (flatSegs A).length) := by omega
        rw [he, List.take_append_drop]
      conv_rhs => rw [← hp]
      simp [List.append_assoc]
    · -- well-formedness of the refined decomposition
      apply goodSegs_replace (hsegs ▸ hgood)
      exact ⟨hasPreOccur_take hpiececlean _, trivial, hwftok, hgoodR⟩
    · -- every token resolves in the final store
      have hdbfin : (replaceFindingsGo rnd sid input fs f.stop
          ⟨store_token_db st.db (mintedRow rnd sid f st.ctr), st.ctr + 1⟩).2.db =
          st.db ++ (mintedRow rnd sid f st.ctr :: rowsR) := by
        rw [hdbR]
        show (st.db ++ [mintedRow rnd sid f st.ctr]) ++ rowsR = _
        simp
      apply resolvable_append.mpr
      constructor
      · rw [hdbfin]
        exact resolvable_extend hresAB.1
      · show Resolvable _ sid (.piece _ :: .tok _ _ :: segsRec)
        refine (?_ : Resolvable _ sid (.tok _ _ :: segsRec))
        constructor
        · rw [hdbfin]
          apply lookup_token_db_fresh
          · intro r3 hr3
            apply hfresh st.ctr le_rfl (by simp only [List.length_cons]; omega) r3 hr3
          · exact ⟨rfl, rfl, rfl⟩
        · exact hresR
    · -- the mint counter does not decrease
      rw [hctr2simp] at hctr1R
      exact le_trans (Nat.le_succ st.ctr) hctr1R
    · -- the mint counter advances at most once per finding
      rw [hctr2simp] at hctr2R
      have hthis : (replaceFindingsGo rnd sid input fs f.stop
          ⟨store_token_db st.db (mintedRow rnd sid f st.ctr), st.ctr + 1⟩).2.ctr ≤
          st.ctr + (f :: fs).length := by
        simp only [List.length_cons]
        omega
      exact hthis
    · -- store evolution: old rows plus the freshly minted ones
      refine ⟨mintedRow rnd sid f st.ctr :: rowsR, ?_, ?_⟩
      · rw [hdbR]
        show (st.db ++ [mintedRow rnd sid f st.ctr]) ++ rowsR = _
        simp
      · intro r3 hr3
        rcases List.mem_cons.mp hr3 with hr3new | hr3old
        · subst hr3new
          refine ⟨rfl, st.ctr, le_rfl, ?_, rfl⟩
          rw [hctr2simp] at hctr1R
          exact lt_of_lt_of_le (Nat.lt_succ_self st.ctr) hctr1R
        · obtain ⟨hsid, i, hi1, hi2, htok⟩ := hrowsR r3 hr3old
          rw [hctr2simp] at hi1
          exact ⟨hsid, i, by omega, hi2, htok⟩

theorem insertByStart_mem {f a : Finding} :
    ∀ {l : List Finding}, a ∈ insertByStart f l ↔ a = f ∨ a ∈ l := by
  intro l
  induction l with
  | nil => simp [insertByStart]
  | cons g gs ih =>
    by_cases h : g.start < f.start
    · simp only [insertByStart, h, if_true, List.mem_cons, ih]
      tauto
    · simp only [insertByStart, h, if_false, List.mem_cons]

theorem insertByStart_sorted {f : Finding} :
    ∀ {l : List Finding}, List.Pairwise (fun a b => a.start ≤ b.start) l →
      List.Pairwise (fun a b => a.start ≤ b.start) (insertByStart f l) := by
  intro l
  induction l with
  | nil => intro _; simp [insertByStart]
  | cons g gs ih =>
    intro hp
    obtain ⟨hg, hgs⟩ := List.pairwise_cons.mp hp
    by_cases h : g.start < f.start
    · simp only [insertByStart, h, if_true]
      apply List.pairwise_cons.mpr
      refine ⟨?_, ih hgs⟩
      intro a ha
      rcases insertByStart_mem.mp ha with rfl | hmem
      · omega
      · exact hg a hmem
    · simp only [insertByStart, h, if_false]
      apply List.pairwise_cons.mpr
      refine ⟨?_, hp⟩
      intro a ha
      rcases List.mem_cons.mp ha with rfl | hmem
      · omega
      · have := hg a hmem
        omega

theorem sortFindings_sorted (fs : List Finding) :
    List.Pairwise (fun a b => a.start ≤ b.start) (sortFindings fs) := by
  induction fs with
  | nil => simp [sortFindings]
  | cons f fs ih => exact insertByStart_sorted ih

theorem sortFindings_mem {fs : List Finding} {f : Finding} :
    f ∈ sortFindings fs ↔ f ∈ fs := by
  induction fs with
  | nil => simp [sortFindings]
  | cons g gs ih =>
    simp only [sortFindings, insertByStart_mem, List.mem_cons, ih]

theorem joinResolve_eq_orig {db : TokenDB} {sid : List Char} :
    ∀ {segs : List Seg}, Resolvable db sid segs →
      joinResolve db sid segs = origSegs segs := by
  intro segs
  induction segs with
  | nil => intro _; rfl
  | cons s ss ih =>
    intro hres
    cases s with
    | piece p =>
      show p ++ joinResolve db sid ss = p ++ origSegs ss
      rw [ih hres]
    | tok t v =>
      show resolveWith db sid t ++ joinResolve db sid ss = v ++ origSegs ss
      rw [ih hres.2]
      unfold resolveWith
      rw [hres.1]

/-! ## Claim C5: the obfuscation/detokenization round trip -/

/-- C5 (amended): the round trip holds on well-behaved inputs, and
obfuscation is a no-op without detector matches.

Part 1 (round trip): for every payload `T` free of the token sentinel
prefix, if the first-pass detector reports valid in-bounds findings on `T`,
the second-pass detector reports, on any well-formed decomposition, only
findings lying inside plain-text pieces (or skipped token starts), and the
minted random payloads are valid hex, collision-free and absent from the
prior store, then detokenizing the obfuscated output against the final
store restores `T` exactly.

Part 2 (no-op): if both detectors find nothing on `T`, obfuscation returns
`T` byte-identical with the store untouched. -/
theorem c5_amended_roundtrip_and_noop :
    (∀ (detectF presidioF : List Char → List Finding) (rnd : Nat → List Char)
      (sid : List Char) (db0 : TokenDB) (ctr0 : Nat) (T : List Char),
      hasPreOccur T = false →
      (∀ f ∈ detectF T, f.start < f.stop ∧ f.stop ≤ T.length ∧
        f.value = sliceC T f.start f.stop) →
      (∀ (X : List Char) (segs : List Seg), GoodSegs segs → X = flatSegs segs →
        ∀ f ∈ presidioF X,
          (f.start < f.stop ∧ f.stop ≤ X.length ∧ f.value = sliceC X f.start f.stop) ∧
          (tokPre.isPrefixOf (X.drop f.start) = true ∨ InPiece 0 segs f)) →
      ∀ (U : List Char) (st1 : ObSt),
        replaceFindingsGo rnd sid T (sortFindings (detectF T)) 0 ⟨db0, ctr0⟩ = (U, st1) →
        (∀ i, ctr0 ≤ i → i < ctr0 + ((sortFindings (detectF T)).length +
          (sortFindings (presidioF U)).length) → HexPayload (rnd i)) →
        (∀ i, ctr0 ≤ i → i < ctr0 + ((sortFindings (detectF T)).length +
          (sortFindings (presidioF U)).length) →
          ∀ r ∈ db0, r.token ≠ generate_token_hex (rnd i)) →
        (∀ i j, ctr0 ≤ i → i < ctr0 + ((sortFindings (detectF T)).length +
          (sortFindings (presidioF U)).length) → ctr0 ≤ j →
          j < ctr0 + ((sortFindings (detectF T)).length +
          (sortFindings (presidioF U)).length) → i ≠ j → rnd i ≠ rnd j) →
        detokenize_text
          (obfuscateText detectF presidioF rnd sid ⟨db0, ctr0⟩ T).2.db sid
          (obfuscateText detectF presidioF rnd sid ⟨db0, ctr0⟩ T).1 = T) ∧
    (∀ (detectF presidioF : List Char → List Finding) (rnd : Nat → List Char)
      (sid : List Char) (st : ObSt) (T : List Char),
      detectF T = [] → presidioF T = [] →
      obfuscateText detectF presidioF rnd sid st T = (T, st)) := by
  constructor
  · intro detectF presidioF rnd sid db0 ctr0 T hclean hdet hpres U st1 hU
      hhex hfresh hinj
    -- pass 1 over the single piece `T`
    have hlen1 : (sortFindings (detectF T)).length ≤
        (sortFindings (detectF T)).length + (sortFindings (presidioF U)).length := by
      omega
    obtain ⟨segsU, hflatU, horigU, hgoodU, hresU, hctr1U, hctr2U, rows1, hdb1, hrows1⟩ :=
      replaceGo_segs rnd sid T (sortFindings (detectF T)) 0 ⟨db0, ctr0⟩ [.piece T]
        (by simp [flatSegs]) (by omega)
        ⟨hclean, trivial, trivial⟩ trivial
        (sortFindings_sorted _)
        (fun f hf => hdet f (sortFindings_mem.mp hf))
        (fun f hf => by
          right; right
          have hv1 := (hdet f (sortFindings_mem.mp hf)).1
          have hv2 := (hdet f (sortFindings_mem.mp hf)).2.1
          refine ⟨(0, 0 + T.length), List.mem_cons_self _ _, by omega, ?_⟩
          show f.stop ≤ 0 + T.length
          omega)
        (fun i hi1 hi2 => hhex i hi1 (by
          have h2 : i < ctr0 + (sortFindings (detectF T)).length := hi2
          omega))
        (fun i hi1 hi2 => hfresh i hi1 (by
          have h2 : i < ctr0 + (sortFindings (detectF T)).length := hi2
          omega))
        (fun i j hi1 hi2 hj1 hj2 => hinj i j hi1 (by
            have h2 : i < ctr0 + (sortFindings (detectF T)).length := hi2
            omega) hj1 (by
            have h2 : j < ctr0 + (sortFindings (detectF T)).length := hj2
            omega))
    rw [hU] at hflatU hresU hctr1U hctr2U hdb1 hrows1
    have hflatU2 : U = flatSegs segsU := hflatU
    have hresU2 : Resolvable st1.db sid segsU := hresU
    have hctr1U2 : ctr0 ≤ st1.ctr := hctr1U
    have hctr2U2 : st1.ctr ≤ ctr0 + (sortFindings (detectF T)).length := hctr2U
    have hdb12 : st1.db = db0 ++ rows1 := hdb1
    have hrows12 : ∀ r ∈ rows1, r.session_id = sid ∧ ∃ i : Nat, ctr0 ≤ i ∧
        i < st1.ctr ∧ r.token = generate_token_hex (rnd i) := hrows1
    -- the obfuscation output is the second pass over `U`
    have hobf : obfuscateText detectF presidioF rnd sid ⟨db0, ctr0⟩ T =
        replaceFindingsGo rnd sid U (sortFindings (presidioF U)) 0 st1 := by
      unfold obfuscateText
      rw [hU]
    -- pass 2 over the decomposition of `U`
    have hpresU := hpres U segsU hgoodU hflatU2
    obtain ⟨segsO, hflatO, horigO, hgoodO, hresO, hctr1O, hctr2O, rows2, hdb2, hrows2⟩ :=
      replaceGo_segs rnd sid U (sortFindings (presidioF U)) 0 st1 segsU
        (by simp only [List.drop_zero]; exact hflatU2) (by omega) hgoodU hresU2
        (sortFindings_sorted _)
        (fun f hf => (hpresU f (sortFindings_mem.mp hf)).1)
        (fun f hf => by
          rcases (hpresU f (sortFindings_mem.mp hf)).2 with hpre | hip
          · right; left; exact hpre
          · right; right; exact hip)
        (fun i hi1 hi2 => hhex i (by omega) (by omega))
        (fun i hi1 hi2 r hr => by
          rw [hdb12] at hr
          rcases List.mem_append.mp hr with hold | hnew
          · exact hfresh i (by omega) (by omega) r hold
          · obtain ⟨hsid2, k, hk1, hk2, htokk⟩ := hrows12 r hnew
            rw [htokk]
            intro hcon
            have := generate_token_hex_inj hcon
            exact hinj k i (by omega) (by omega) (by omega) (by omega)
              (by omega) this)
        (fun i j hi1 hi2 hj1 hj2 => hinj i j (by omega) (by omega) (by omega)
          (by omega))
    -- detokenize the final text against the final store
    rw [hobf]
    rw [show (replaceFindingsGo rnd sid U (sortFindings (presidioF U)) 0 st1).1 =
      flatSegs segsO from hflatO]
    unfold detokenize_text
    rw [scanSubGo_flatSegs _ sid segsO (flatSegs segsO).length hgoodO le_rfl]
    rw [joinResolve_eq_orig hresO, horigO]
    rw [show origSegs segsU = T from by simpa [origSegs] using horigU]
  · intro detectF presidioF rnd sid st T hdet hpres
    unfold obfuscateText
    rw [hdet]
    have hsortnil : sortFindings ([] : List Finding) = [] := by
      rfl
    rw [hsortnil, replaceGo_nil]
    simp only [List.drop_zero]
    rw [hpres, hsortnil, replaceGo_nil]
    simp

/-- The constant random stream used by the concrete C5 instances. -/
def exRnd : Nat → List Char := fun _ => List.replicate 64 '0'

/-- The presidio wrapper modelled as reporting no findings (its only
pattern is the e-mail regex, already covered by the first pass). -/
def noFindings : List Char → List Finding := fun _ => []

/-- C5 counterexample: for the text consisting of a token already stored
for the session, both detectors find nothing, so obfuscation is a no-op;
detokenization then rewrites the text to the stored plaintext, so
`detokenize(obfuscate(T, s), s) ≠ T` — the unconditional round-trip law
fails. -/
theorem c5_counterexample :
    (obfuscateText detectEmails detectEmails exRnd (chars "X") ⟨exDb, 0⟩ exTok).1 =
        exTok ∧
      detokenize_text
        (obfuscateText detectEmails detectEmails exRnd (chars "X") ⟨exDb, 0⟩ exTok).2.db
        (chars "X")
        (obfuscateText detectEmails detectEmails exRnd (chars "X") ⟨exDb, 0⟩ exTok).1 =
        chars "a@b.com" ∧
      chars "a@b.com" ≠ exTok := by
  refine ⟨rfl, rfl, by decide⟩

/-- Witness for `c5_amended_roundtrip_and_noop`: the round trip at spec
Scenario D text (one detected e-mail), and the no-op on a match-free text. -/
theorem c5_witness :
    detokenize_text
        (obfuscateText detectEmails noFindings exRnd (chars "X") ⟨[], 0⟩
          (chars "Contact a@b.com")).2.db
        (chars "X")
        (obfuscateText detectEmails noFindings exRnd (chars "X") ⟨[], 0⟩
          (chars "Contact a@b.com")).1 = chars "Contact a@b.com" ∧
      obfuscateText detectEmails noFindings exRnd (chars "X") ⟨[], 0⟩ (chars "hello") =
        (chars "hello", ⟨[], 0⟩) := by
  constructor
  · exact c5_amended_roundtrip_and_noop.1 detectEmails noFindings exRnd (chars "X")
      [] 0 (chars "Contact a@b.com")
      (by decide)
      (by decide)
      (fun X segs hg hX f hf => absurd hf (List.not_mem_nil f))
      (replaceFindingsGo exRnd (chars "X") (chars "Contact a@b.com")
        (sortFindings (detectEmails (chars "Contact a@b.com"))) 0 ⟨[], 0⟩).1
      (replaceFindingsGo exRnd (chars "X") (chars "Contact a@b.com")
        (sortFindings (detectEmails (chars "Contact a@b.com"))) 0 ⟨[], 0⟩).2
      rfl
      (fun i h1 h2 => (⟨by decide, by decide, by decide⟩ :
        HexPayload (List.replicate 64 '0')))
      (fun i h1 h2 r hr => absurd hr (List.not_mem_nil r))
      (fun i j h1 h2 h3 h4 hne => by
        have h2a : i < 1 := lt_of_lt_of_eq h2 (by decide)
        have h4a : j < 1 := lt_of_lt_of_eq h4 (by decide)
        omega)
  · exact c5_amended_roundtrip_and_noop.2 detectEmails noFindings exRnd (chars "X")
      ⟨[], 0⟩ (chars "hello") (by decide) rfl

end OpenEdison
